import Mathlib

/-!
Verification of the indicator / backtest / portfolio engine (`indicators.py`).

Numeric model: the engine computes with IEEE doubles over exact decimal
inputs.  We model a double by `Val`: a finite rational, `+inf`, `-inf`, or
`nan` (pandas uses `nan` both for missing data and for 0/0).  Arithmetic on
`Val` follows IEEE semantics with exact rational arithmetic on the finite
part (float rounding error is outside the model).  A pandas `Series` is a
`List Val`.

Irrational primitives (`np.sqrt`, the square root inside `std`, and
`np.linalg.pinv`) are abstract parameters of the embedding; concrete
theorems pin `pinv` at the inputs they use via the (decidable) Moore-Penrose
equations.
-/

inductive Val where
  | fin (q : ℚ)
  | pinf
  | ninf
  | nan
deriving DecidableEq

namespace Val

def isFin : Val → Bool
  | fin _ => true
  | _ => false

def isNan : Val → Bool
  | nan => true
  | _ => false

/-- The finite part of a value (0 for non-finite values). -/
def toQ : Val → ℚ
  | fin q => q
  | _ => 0

def add : Val → Val → Val
  | nan, _ => nan
  | _, nan => nan
  | fin a, fin b => fin (a + b)
  | pinf, ninf => nan
  | ninf, pinf => nan
  | pinf, _ => pinf
  | _, pinf => pinf
  | ninf, _ => ninf
  | _, ninf => ninf

def neg : Val → Val
  | fin a => fin (-a)
  | pinf => ninf
  | ninf => pinf
  | nan => nan

def mul : Val → Val → Val
  | nan, _ => nan
  | _, nan => nan
  | fin a, fin b => fin (a * b)
  | fin a, pinf => if a = 0 then nan else if 0 < a then pinf else ninf
  | pinf, fin a => if a = 0 then nan else if 0 < a then pinf else ninf
  | fin a, ninf => if a = 0 then nan else if 0 < a then ninf else pinf
  | ninf, fin a => if a = 0 then nan else if 0 < a then ninf else pinf
  | pinf, pinf => pinf
  | pinf, ninf => ninf
  | ninf, pinf => ninf
  | ninf, ninf => pinf

/-- IEEE division: `a/0` is a signed infinity for `a ≠ 0`, `0/0` is `nan`. -/
def div : Val → Val → Val
  | nan, _ => nan
  | _, nan => nan
  | fin a, fin b =>
      if b = 0 then (if a = 0 then nan else if 0 < a then pinf else ninf)
      else fin (a / b)
  | fin _, pinf => fin 0
  | fin _, ninf => fin 0
  | pinf, fin b => if 0 ≤ b then pinf else ninf
  | ninf, fin b => if 0 ≤ b then ninf else pinf
  | pinf, pinf => nan
  | pinf, ninf => nan
  | ninf, pinf => nan
  | ninf, ninf => nan

/-- IEEE `<` : any comparison with `nan` is false. -/
def lt : Val → Val → Bool
  | nan, _ => false
  | _, nan => false
  | fin a, fin b => decide (a < b)
  | fin _, pinf => true
  | ninf, fin _ => true
  | ninf, pinf => true
  | _, _ => false

def vabs : Val → Val
  | fin a => fin |a|
  | pinf => pinf
  | ninf => pinf
  | nan => nan

def vmax (a b : Val) : Val := if lt a b then b else a

def vmin (a b : Val) : Val := if lt b a then b else a

end Val

instance : Add Val := ⟨Val.add⟩
instance : Neg Val := ⟨Val.neg⟩
instance : Mul Val := ⟨Val.mul⟩
instance : Div Val := ⟨Val.div⟩
instance : Sub Val := ⟨fun a b => Val.add a (Val.neg b)⟩

namespace Val

@[simp] theorem fin_add_fin (a b : ℚ) : fin a + fin b = fin (a + b) := rfl
@[simp] theorem nan_add (v : Val) : nan + v = nan := by cases v <;> rfl
@[simp] theorem add_nan (v : Val) : v + nan = nan := by cases v <;> rfl
@[simp] theorem fin_add_pinf (a : ℚ) : fin a + pinf = pinf := rfl
@[simp] theorem pinf_add_fin (a : ℚ) : pinf + fin a = pinf := rfl
@[simp] theorem fin_mul_fin (a b : ℚ) : fin a * fin b = fin (a * b) := rfl
@[simp] theorem nan_mul (v : Val) : nan * v = nan := by cases v <;> rfl
@[simp] theorem mul_nan (v : Val) : v * nan = nan := by cases v <;> rfl
@[simp] theorem fin_sub_fin (a b : ℚ) : fin a - fin b = fin (a - b) := by
  show fin (a + -b) = fin (a - b); rw [← sub_eq_add_neg]
@[simp] theorem nan_sub (v : Val) : nan - v = nan := by cases v <;> rfl
@[simp] theorem sub_nan (v : Val) : v - nan = nan := by cases v <;> rfl
@[simp] theorem nan_div (v : Val) : nan / v = nan := by cases v <;> rfl
@[simp] theorem div_nan (v : Val) : v / nan = nan := by cases v <;> rfl

theorem fin_div_fin (a b : ℚ) (hb : b ≠ 0) : fin a / fin b = fin (a / b) := by
  show div _ _ = _
  rw [div]
  simp [hb]

@[simp] theorem fin_div_zero_pos (a : ℚ) (ha : 0 < a) : fin a / fin 0 = pinf := by
  show div _ _ = _
  rw [div]
  simp [ha, ha.ne.symm]

@[simp] theorem zero_div_zero : fin 0 / fin 0 = nan := by
  show div _ _ = _
  rw [div]
  simp

@[simp] theorem fin_div_pinf (a : ℚ) : fin a / pinf = fin 0 := rfl

@[simp] theorem one_mul_val (v : Val) : fin 1 * v = v := by
  cases v with
  | fin q => show fin (1 * q) = fin q; rw [one_mul]
  | pinf =>
      show (if (1:ℚ) = 0 then nan else if 0 < (1:ℚ) then pinf else ninf) = pinf
      norm_num
  | ninf =>
      show (if (1:ℚ) = 0 then nan else if 0 < (1:ℚ) then ninf else pinf) = ninf
      norm_num
  | nan => rfl

@[simp] theorem val_mul_one (v : Val) : v * fin 1 = v := by
  cases v with
  | fin q => show fin (q * 1) = fin q; rw [mul_one]
  | pinf =>
      show (if (1:ℚ) = 0 then nan else if 0 < (1:ℚ) then pinf else ninf) = pinf
      norm_num
  | ninf =>
      show (if (1:ℚ) = 0 then nan else if 0 < (1:ℚ) then ninf else pinf) = ninf
      norm_num
  | nan => rfl

@[simp] theorem add_zero_val (v : Val) : v + fin 0 = v := by
  cases v with
  | fin q => show fin (q + 0) = fin q; rw [add_zero]
  | pinf => rfl
  | ninf => rfl
  | nan => rfl

@[simp] theorem zero_add_val (v : Val) : fin 0 + v = v := by
  cases v with
  | fin q => show fin (0 + q) = fin q; rw [zero_add]
  | pinf => rfl
  | ninf => rfl
  | nan => rfl

@[simp] theorem div_one_val (v : Val) : v / fin 1 = v := by
  cases v with
  | fin q =>
      show (if (1:ℚ) = 0 then (if q = 0 then nan else if 0 < q then pinf else ninf)
            else fin (q / 1)) = fin q
      norm_num
  | pinf => show (if (0:ℚ) ≤ 1 then pinf else ninf) = pinf; norm_num
  | ninf => show (if (0:ℚ) ≤ 1 then ninf else pinf) = ninf; norm_num
  | nan => rfl

@[simp] theorem lt_nan (v : Val) : lt v nan = false := by cases v <;> rfl
@[simp] theorem nan_lt (v : Val) : lt nan v = false := by cases v <;> rfl
@[simp] theorem fin_lt_fin (a b : ℚ) : lt (fin a) (fin b) = decide (a < b) := rfl
@[simp] theorem fin_lt_pinf (a : ℚ) : lt (fin a) pinf = true := rfl
@[simp] theorem pinf_lt (v : Val) : lt pinf v = false := by cases v <;> rfl

@[simp] theorem isNan_fin (q : ℚ) : isNan (fin q) = false := rfl
@[simp] theorem isNan_nan : isNan nan = true := rfl
@[simp] theorem isFin_fin (q : ℚ) : isFin (fin q) = true := rfl
@[simp] theorem toQ_fin (q : ℚ) : toQ (fin q) = q := rfl

end Val

/-! ### Series: a pandas `Series` is a `List Val`, missing data is `nan`. -/

/-- Entry of a series at position `t` (`nan` when out of range). -/
def idx (xs : List Val) (t : ℕ) : Val := xs.getD t Val.nan

/-- Build a series of length `n` from a position formula. -/
def seriesMap (n : ℕ) (f : ℕ → Val) : List Val := (List.range n).map f

@[simp] theorem length_seriesMap (n : ℕ) (f : ℕ → Val) : (seriesMap n f).length = n := by
  simp [seriesMap]

theorem idx_seriesMap {n t : ℕ} (f : ℕ → Val) (h : t < n) : idx (seriesMap n f) t = f t := by
  simp [idx, seriesMap, List.getD_eq_getElem?_getD, List.getElem?_map, List.getElem?_range h]

/-- Sum of a series, as computed by summing elementwise (IEEE semantics). -/
def sumV (l : List Val) : Val := l.foldr Val.add (Val.fin 0)

@[simp] theorem sumV_nil : sumV [] = Val.fin 0 := rfl

@[simp] theorem sumV_cons (x : Val) (l : List Val) : sumV (x :: l) = x + sumV l := rfl

theorem sumV_fin_of_all (l : List Val) (h : ∀ v ∈ l, v.isFin = true) :
    sumV l = Val.fin ((l.map Val.toQ).sum) := by
  induction l with
  | nil => rfl
  | cons x xs ih =>
      have hx := h x (List.mem_cons_self x xs)
      cases x with
      | fin q =>
          rw [sumV_cons, ih (fun v hv => h v (List.mem_cons_of_mem _ hv))]
          simp
      | pinf => simp [Val.isFin] at hx
      | ninf => simp [Val.isFin] at hx
      | nan => simp [Val.isFin] at hx

theorem sumV_map_fin (l : List ℚ) : sumV (l.map Val.fin) = Val.fin l.sum := by
  rw [sumV_fin_of_all]
  · rw [List.map_map]
    congr 1
    induction l with
    | nil => rfl
    | cons x xs ih => simp [ih]
  · intro v hv
    rcases List.mem_map.1 hv with ⟨q, _, rfl⟩
    rfl

/-- The trailing window of length `w` ending at position `t`. -/
def window (xs : List Val) (t w : ℕ) : List Val := (xs.drop (t + 1 - w)).take w

theorem window_subset (xs : List Val) (t w : ℕ) : window xs t w ⊆ xs :=
  fun _ hv => List.drop_subset _ _ (List.take_subset _ _ hv)

theorem length_window (xs : List Val) {t w : ℕ} (hw : w ≤ t + 1) (ht : t < xs.length) :
    (window xs t w).length = w := by
  simp only [window, List.length_take, List.length_drop]
  omega

theorem getElem?_window (xs : List Val) {t w j : ℕ} (hj : j < w) :
    (window xs t w)[j]? = xs[t + 1 - w + j]? := by
  rw [window, List.getElem?_take_of_lt hj, List.getElem?_drop]

/-- Embeds `series.rolling(window=w).mean()`: mean of the trailing `w` values;
`nan` while the window has not filled (and whenever the window holds a `nan`,
which poisons the IEEE sum). -/
def rollingMean (xs : List Val) (w : ℕ) : List Val :=
  seriesMap xs.length (fun t =>
    if t + 1 < w then Val.nan
    else sumV (window xs t w) / Val.fin (w : ℚ))

@[simp] theorem length_rollingMean (xs : List Val) (w : ℕ) :
    (rollingMean xs w).length = xs.length := by
  simp [rollingMean]

theorem idx_rollingMean (xs : List Val) {w t : ℕ} (ht : t < xs.length) :
    idx (rollingMean xs w) t =
      if t + 1 < w then Val.nan else sumV (window xs t w) / Val.fin (w : ℚ) :=
  idx_seriesMap _ ht

/-- Embeds `series.diff()`: first difference, `nan` at position 0. -/
def diffV (xs : List Val) : List Val :=
  seriesMap xs.length (fun t => if t = 0 then Val.nan else idx xs t - idx xs (t - 1))

/-- Embeds `series.shift(1)`: shift forward by one bar, `nan` at position 0. -/
def shiftV (xs : List Val) : List Val :=
  seriesMap xs.length (fun t => if t = 0 then Val.nan else idx xs (t - 1))

/-- Embeds `series.fillna(method='ffill')`: the last non-`nan` value at or before `t`. -/
def ffillV (xs : List Val) : List Val :=
  seriesMap xs.length (fun t =>
    (((xs.take (t + 1)).reverse).find? (fun v => !v.isNan)).getD Val.nan)

/-- Embeds `series.fillna(0.0)`. -/
def fillzV (xs : List Val) : List Val :=
  xs.map (fun v => if v.isNan then Val.fin 0 else v)

/-- Elementwise product of two index-aligned series. -/
def mul2V (xs ys : List Val) : List Val :=
  seriesMap xs.length (fun t => idx xs t * idx ys t)

/-- Embeds `series.pct_change()` (legacy default `fill_method='pad'`: forward-fill,
then `x[t]/x[t-1] - 1`); position 0 is `nan`. -/
def pctChange (xs : List Val) : List Val :=
  seriesMap xs.length (fun t =>
    if t = 0 then Val.nan
    else idx (ffillV xs) t / idx (ffillV xs) (t - 1) - Val.fin 1)

@[simp] theorem length_pctChange (xs : List Val) : (pctChange xs).length = xs.length := by
  simp [pctChange]

def cumprodGo (acc : Val) : List Val → List Val
  | [] => []
  | x :: rest =>
      if x.isNan then Val.nan :: cumprodGo acc rest
      else (acc * x) :: cumprodGo (acc * x) rest

/-- Embeds `series.cumprod()` (skipna: a `nan` entry yields `nan` at that position
but does not enter the running product). -/
def cumprodV (xs : List Val) : List Val := cumprodGo (Val.fin 1) xs

/-! ### TechnicalIndicators -/

/-- Embeds `TechnicalIndicators.simple_moving_average`: `data.rolling(window=window).mean()`. -/
def simple_moving_average (data : List Val) (w : ℕ) : List Val := rollingMean data w

def ewmGo (b num den : ℚ) : List Val → List Val
  | [] => []
  | Val.fin q :: rest =>
      (if 1 + b * den = 0 then Val.nan else Val.fin ((q + b * num) / (1 + b * den))) ::
        ewmGo b (q + b * num) (1 + b * den) rest
  | _ :: rest =>
      (if b * den = 0 then Val.nan else Val.fin ((b * num) / (b * den))) ::
        ewmGo b (b * num) (b * den) rest

/-- Embeds `TechnicalIndicators.exponential_moving_average`: `data.ewm(span=window).mean()`
with the pandas defaults `adjust=True`, `ignore_na=False`: pandas maintains a
debiased numerator/denominator pair with decay `1 - a`, `a = 2/(span+1)`; a
missing observation gets no weight but still decays the accumulated weights. -/
def exponential_moving_average (data : List Val) (w : ℕ) : List Val :=
  ewmGo (1 - 2 / ((w : ℚ) + 1)) 0 0 data

/-- Sample variance (`ddof=1`) of a list of rationals. -/
def svarQ (l : List ℚ) : ℚ :=
  (l.map (fun x => (x - l.sum / (l.length : ℚ)) ^ 2)).sum / ((l.length : ℚ) - 1)

/-- Embeds `series.rolling(window=w).std()`: trailing sample standard deviation:
`nan` during warm-up, for `w ≤ 1` (the `ddof=1` denominator is zero) and on
windows holding non-finite values.  `sq` is the square-root routine
(abstract parameter: the floating-point square root is irrational). -/
def rollingStd (sq : ℚ → ℚ) (xs : List Val) (w : ℕ) : List Val :=
  seriesMap xs.length (fun t =>
    if t + 1 < w ∨ w ≤ 1 then Val.nan
    else if (window xs t w).all Val.isFin then
      Val.fin (sq (svarQ ((window xs t w).map Val.toQ)))
    else Val.nan)

/-- Embeds `TechnicalIndicators.bollinger_bands`, `upper` column: `ma + std * num_std`. -/
def bollinger_upper (sq : ℚ → ℚ) (data : List Val) (w : ℕ) (k : ℚ) : List Val :=
  seriesMap data.length (fun t =>
    idx (rollingMean data w) t + idx (rollingStd sq data w) t * Val.fin k)

/-- Embeds `TechnicalIndicators.bollinger_bands`, `middle` column: the rolling mean. -/
def bollinger_middle (data : List Val) (w : ℕ) : List Val := rollingMean data w

/-- Embeds `TechnicalIndicators.bollinger_bands`, `lower` column: `ma - std * num_std`. -/
def bollinger_lower (sq : ℚ → ℚ) (data : List Val) (w : ℕ) (k : ℚ) : List Val :=
  seriesMap data.length (fun t =>
    idx (rollingMean data w) t - idx (rollingStd sq data w) t * Val.fin k)

/-- Embeds `delta.where(delta > 0, 0)` for `delta = data.diff()` (the `nan` at
position 0 compares false, so it is replaced by 0). -/
def gainSeries (data : List Val) : List Val :=
  seriesMap data.length (fun t =>
    if Val.lt (Val.fin 0) (idx (diffV data) t) then idx (diffV data) t else Val.fin 0)

/-- Embeds `(-delta.where(delta < 0, 0))`. -/
def lossSeries (data : List Val) : List Val :=
  seriesMap data.length (fun t =>
    Val.neg (if Val.lt (idx (diffV data) t) (Val.fin 0) then idx (diffV data) t else Val.fin 0))

def avgGain (data : List Val) (w : ℕ) : List Val := rollingMean (gainSeries data) w

def avgLoss (data : List Val) (w : ℕ) : List Val := rollingMean (lossSeries data) w

/-- Embeds `TechnicalIndicators.rsi`: `rs = gain/loss`, `rsi = 100 - 100/(1+rs)`,
with `gain`/`loss` the rolling means of positive / negated negative deltas. -/
def rsi (data : List Val) (w : ℕ) : List Val :=
  seriesMap data.length (fun t =>
    Val.fin 100 - Val.fin 100 / (Val.fin 1 + idx (avgGain data w) t / idx (avgLoss data w) t))

/-- Embeds `TechnicalIndicators.macd`, `macd` column: `EMA(fast) - EMA(slow)`. -/
def macd_line (data : List Val) (fast slow : ℕ) : List Val :=
  seriesMap data.length (fun t =>
    idx (exponential_moving_average data fast) t - idx (exponential_moving_average data slow) t)

/-- Embeds `TechnicalIndicators.macd`, `signal` column. -/
def macd_signal_line (data : List Val) (fast slow sigp : ℕ) : List Val :=
  exponential_moving_average (macd_line data fast slow) sigp

/-- Embeds `TechnicalIndicators.macd`, `histogram` column. -/
def macd_histogram (data : List Val) (fast slow sigp : ℕ) : List Val :=
  seriesMap data.length (fun t =>
    idx (macd_line data fast slow) t - idx (macd_signal_line data fast slow sigp) t)

def qListMin : List ℚ → ℚ
  | [] => 0
  | x :: rest => rest.foldl min x

def qListMax : List ℚ → ℚ
  | [] => 0
  | x :: rest => rest.foldl max x

/-- Embeds `series.rolling(window=w).min()`. -/
def rollingMin (xs : List Val) (w : ℕ) : List Val :=
  seriesMap xs.length (fun t =>
    if t + 1 < w then Val.nan
    else if (window xs t w).all Val.isFin then
      Val.fin (qListMin ((window xs t w).map Val.toQ))
    else Val.nan)

/-- Embeds `series.rolling(window=w).max()`. -/
def rollingMax (xs : List Val) (w : ℕ) : List Val :=
  seriesMap xs.length (fun t =>
    if t + 1 < w then Val.nan
    else if (window xs t w).all Val.isFin then
      Val.fin (qListMax ((window xs t w).map Val.toQ))
    else Val.nan)

/-- Embeds `TechnicalIndicators.stochastic_oscillator`, `k_percent` column:
`100 * (close - lowestLow) / (highestHigh - lowestLow)`. -/
def stochastic_k (high low close : List Val) (kw : ℕ) : List Val :=
  seriesMap close.length (fun t =>
    Val.fin 100 * ((idx close t - idx (rollingMin low kw) t) /
      (idx (rollingMax high kw) t - idx (rollingMin low kw) t)))

/-- Embeds `TechnicalIndicators.stochastic_oscillator`, `d_percent` column. -/
def stochastic_d (high low close : List Val) (kw dw : ℕ) : List Val :=
  rollingMean (stochastic_k high low close kw) dw

/-- Row maximum of the three true-range candidates
(`pd.concat([...], axis=1).max(axis=1)`, which skips `nan`s). -/
def rowMax3 (a b c : Val) : Val :=
  match ([a, b, c].filter (fun v => !v.isNan)) with
  | [] => Val.nan
  | x :: rest => rest.foldl Val.vmax x

/-- True range per bar: `max(high-low, |high-prevClose|, |low-prevClose|)`;
at bar 0 the shifted close is `nan`, so only `high-low` survives the skipna
row maximum. -/
def trueRange (high low close : List Val) : List Val :=
  seriesMap high.length (fun t =>
    rowMax3 (idx high t - idx low t)
      (Val.vabs (idx high t - idx (shiftV close) t))
      (Val.vabs (idx low t - idx (shiftV close) t)))

/-- Embeds `TechnicalIndicators.atr`: rolling mean of the true range. -/
def atr (high low close : List Val) (w : ℕ) : List Val :=
  rollingMean (trueRange high low close) w

/-! ### Basic series lemmas -/

theorem mem_seriesMap {n : ℕ} {f : ℕ → Val} {v : Val} (h : v ∈ seriesMap n f) :
    ∃ t, t < n ∧ v = f t := by
  simp only [seriesMap, List.mem_map, List.mem_range] at h
  rcases h with ⟨t, ht, rfl⟩
  exact ⟨t, ht, rfl⟩

theorem sumV_nan_of_mem {l : List Val} (h : ∃ v ∈ l, v.isNan = true) : sumV l = Val.nan := by
  induction l with
  | nil => rcases h with ⟨v, hv, _⟩; cases hv
  | cons x xs ih =>
      rcases h with ⟨v, hv, hnan⟩
      rcases List.mem_cons.1 hv with rfl | hv'
      · have hx : v = Val.nan := by cases v <;> simp [Val.isNan] at hnan ⊢
        rw [sumV_cons, hx, Val.nan_add]
      · rw [sumV_cons, ih ⟨v, hv', hnan⟩, Val.add_nan]

theorem idx_rollingMean_short {xs : List Val} {w t : ℕ} (ht : t < xs.length)
    (hw : xs.length < w) : idx (rollingMean xs w) t = Val.nan := by
  rw [idx_rollingMean xs ht, if_pos (by omega)]

theorem idx_rollingStd_short (sq : ℚ → ℚ) {xs : List Val} {w t : ℕ} (ht : t < xs.length)
    (hw : xs.length < w) : idx (rollingStd sq xs w) t = Val.nan := by
  rw [rollingStd, idx_seriesMap _ ht, if_pos (Or.inl (by omega))]

theorem idx_rollingMin_short {xs : List Val} {w t : ℕ} (ht : t < xs.length)
    (hw : xs.length < w) : idx (rollingMin xs w) t = Val.nan := by
  rw [rollingMin, idx_seriesMap _ ht, if_pos (by omega)]

theorem idx_rollingMax_short {xs : List Val} {w t : ℕ} (ht : t < xs.length)
    (hw : xs.length < w) : idx (rollingMax xs w) t = Val.nan := by
  rw [rollingMax, idx_seriesMap _ ht, if_pos (by omega)]

theorem idx_rollingMean_allnan {xs : List Val} {w t : ℕ} (ht : t < xs.length)
    (h : ∀ v ∈ xs, v = Val.nan) : idx (rollingMean xs w) t = Val.nan := by
  rw [idx_rollingMean xs ht]
  by_cases hwt : t + 1 < w
  · rw [if_pos hwt]
  · rw [if_neg hwt]
    rcases Nat.eq_zero_or_pos w with rfl | hwpos
    · have hempty : window xs t 0 = [] := by simp [window]
      rw [hempty, sumV_nil]
      simp
    · have hne : (window xs t w).length = w := length_window xs (Nat.le_of_not_lt hwt) ht
      have hmem : ∃ v ∈ window xs t w, v.isNan = true := by
        have hnil : window xs t w ≠ [] :=
          List.length_pos.1 (by omega)
        rcases List.exists_mem_of_ne_nil _ hnil with ⟨v, hv⟩
        refine ⟨v, hv, ?_⟩
        rw [h v (window_subset xs t w hv)]
        rfl
      rw [sumV_nan_of_mem hmem, Val.nan_div]

/-- C9: `SMA(window=1)` is the identity transformation: for every input
series (any mix of finite, infinite and missing values), the simple moving
average with window 1 returns the input series itself. -/
theorem c9_sma_window_one_identity (data : List Val) : simple_moving_average data 1 = data := by
  apply List.ext_getElem?
  intro t
  by_cases ht : t < data.length
  · have h1 : (List.range data.length)[t]? = some t := List.getElem?_range ht
    have h2 : data[t]? = some data[t] := List.getElem?_eq_getElem ht
    simp only [simple_moving_average, rollingMean, seriesMap, List.getElem?_map, h1,
      Option.map_some', h2, Option.some.injEq]
    have hw : window data t 1 = [data[t]] := by
      simp only [window, Nat.add_sub_cancel]
      rw [List.drop_eq_getElem_cons ht]
      rfl
    simp [hw, Nat.cast_one]
  · have hle : data.length ≤ t := Nat.le_of_not_lt ht
    rw [simple_moving_average, rollingMean, seriesMap, List.getElem?_map,
      List.getElem?_eq_none (by simpa using hle), List.getElem?_eq_none hle]
    rfl

@[simp] theorem length_gainSeries (data : List Val) :
    (gainSeries data).length = data.length := by simp [gainSeries]

@[simp] theorem length_lossSeries (data : List Val) :
    (lossSeries data).length = data.length := by simp [lossSeries]

@[simp] theorem length_trueRange (high low close : List Val) :
    (trueRange high low close).length = high.length := by simp [trueRange]

@[simp] theorem length_stochastic_k (high low close : List Val) (kw : ℕ) :
    (stochastic_k high low close kw).length = close.length := by simp [stochastic_k]

/-- C8: Insufficient history: when the requested rolling window length
exceeds the series length, each rolling-window indicator (SMA, the three
Bollinger band columns, RSI, the stochastic oscillator and ATR) returns a
derived series of the same length as its input with every position
undefined (`nan`), and no error is raised (every embedded function is
total).  The EMA's `window` argument is a decay span, not a rolling window
— the warm-up convention defines it from bar 0 — so it is not covered. -/
theorem c8_short_history_all_nan (sq : ℚ → ℚ) (data high low close : List Val)
    (w kw dw : ℕ) (k : ℚ)
    (hw : data.length < w) (hkw : close.length < kw)
    (hh : high.length = close.length) (hl : low.length = close.length)
    (haw : high.length < w) :
    ((simple_moving_average data w).length = data.length ∧
      ∀ t < data.length, idx (simple_moving_average data w) t = Val.nan) ∧
    ((bollinger_upper sq data w k).length = data.length ∧
      ∀ t < data.length, idx (bollinger_upper sq data w k) t = Val.nan) ∧
    ((bollinger_middle data w).length = data.length ∧
      ∀ t < data.length, idx (bollinger_middle data w) t = Val.nan) ∧
    ((bollinger_lower sq data w k).length = data.length ∧
      ∀ t < data.length, idx (bollinger_lower sq data w k) t = Val.nan) ∧
    ((rsi data w).length = data.length ∧
      ∀ t < data.length, idx (rsi data w) t = Val.nan) ∧
    ((stochastic_k high low close kw).length = close.length ∧
      ∀ t < close.length, idx (stochastic_k high low close kw) t = Val.nan) ∧
    ((stochastic_d high low close kw dw).length = close.length ∧
      ∀ t < close.length, idx (stochastic_d high low close kw dw) t = Val.nan) ∧
    ((atr high low close w).length = high.length ∧
      ∀ t < high.length, idx (atr high low close w) t = Val.nan) := by
  have hsma : ∀ t < data.length, idx (simple_moving_average data w) t = Val.nan :=
    fun t ht => idx_rollingMean_short ht hw
  have hupper : ∀ t < data.length, idx (bollinger_upper sq data w k) t = Val.nan := by
    intro t ht
    rw [bollinger_upper, idx_seriesMap _ ht, idx_rollingMean_short ht hw,
      idx_rollingStd_short sq ht hw]
    simp
  have hlower : ∀ t < data.length, idx (bollinger_lower sq data w k) t = Val.nan := by
    intro t ht
    rw [bollinger_lower, idx_seriesMap _ ht, idx_rollingMean_short ht hw,
      idx_rollingStd_short sq ht hw]
    simp
  have hrsi : ∀ t < data.length, idx (rsi data w) t = Val.nan := by
    intro t ht
    have h1 : idx (avgGain data w) t = Val.nan :=
      @idx_rollingMean_short (gainSeries data) w t (by simpa using ht) (by simpa using hw)
    have h2 : idx (avgLoss data w) t = Val.nan :=
      @idx_rollingMean_short (lossSeries data) w t (by simpa using ht) (by simpa using hw)
    rw [rsi, idx_seriesMap _ ht, h1, h2]
    simp
  have hk : ∀ t < close.length, idx (stochastic_k high low close kw) t = Val.nan := by
    intro t ht
    have h1 : idx (rollingMin low kw) t = Val.nan :=
      idx_rollingMin_short (by omega) (by omega)
    have h2 : idx (rollingMax high kw) t = Val.nan :=
      idx_rollingMax_short (by omega) (by omega)
    rw [stochastic_k, idx_seriesMap _ ht, h1, h2]
    simp
  have hd : ∀ t < close.length, idx (stochastic_d high low close kw dw) t = Val.nan := by
    intro t ht
    refine idx_rollingMean_allnan (by simpa using ht) ?_
    intro v hv
    rcases mem_seriesMap (by simpa [stochastic_k] using hv) with ⟨s, hs, rfl⟩
    have := hk s hs
    rwa [stochastic_k, idx_seriesMap _ hs] at this
  have hatr : ∀ t < high.length, idx (atr high low close w) t = Val.nan := by
    intro t ht
    exact @idx_rollingMean_short (trueRange high low close) w t (by simpa using ht)
      (by simpa using haw)
  exact ⟨⟨by simp [simple_moving_average], hsma⟩,
    ⟨by simp [bollinger_upper], hupper⟩,
    ⟨by simp [bollinger_middle], hsma⟩,
    ⟨by simp [bollinger_lower], hlower⟩,
    ⟨by simp [rsi], hrsi⟩,
    ⟨by simp, hk⟩,
    ⟨by simp [stochastic_d], hd⟩,
    ⟨by simp [atr], hatr⟩⟩

/-- Witness for C8: a one-bar series with window 2 satisfies the
hypotheses, and the SMA and Bollinger upper band are indeed undefined at
position 0. -/
theorem c8_short_history_witness :
    (([Val.fin 1] : List Val).length < 2 ∧ (1 : ℕ) ≤ 1) ∧
    idx (simple_moving_average [Val.fin 1] 2) 0 = Val.nan ∧
    idx (bollinger_upper id [Val.fin 1] 2 2) 0 = Val.nan ∧
    idx (rsi [Val.fin 1] 2) 0 = Val.nan ∧
    idx (stochastic_d [Val.fin 1] [Val.fin 1] [Val.fin 1] 2 1) 0 = Val.nan ∧
    idx (atr [Val.fin 1] [Val.fin 1] [Val.fin 1] 2) 0 = Val.nan := by
  have h := c8_short_history_all_nan id [Val.fin 1] [Val.fin 1] [Val.fin 1] [Val.fin 1]
    2 2 1 2 (by decide) (by decide) (by decide) (by decide) (by decide)
  exact ⟨⟨by decide, by decide⟩, h.1.2 0 (by decide), h.2.1.2 0 (by decide),
    h.2.2.2.2.1.2 0 (by decide), h.2.2.2.2.2.2.1.2 0 (by decide),
    h.2.2.2.2.2.2.2.2 0 (by decide)⟩

/-! ### BacktestEngine (`QuantitativeAnalysis.backtest_*`) -/

/-- Embeds `backtest_simple_strategy` signal: initialized to 0; from index
`short_window` on, `np.where(short_ma > long_ma, 1.0, 0.0)` (a comparison
against `nan` is false, so an unfilled long MA yields 0). -/
def signalMA (data : List Val) (sw lw : ℕ) : List Val :=
  seriesMap data.length (fun t =>
    if t < sw then Val.fin 0
    else if Val.lt (idx (rollingMean data lw) t) (idx (rollingMean data sw) t) then Val.fin 1
    else Val.fin 0)

/-- Embeds `signals['positions'] = signals['signal'].diff()`. -/
def positionsMA (data : List Val) (sw lw : ℕ) : List Val := diffV (signalMA data sw lw)

/-- Embeds `signals['strategy_returns'] = signals['signal'].shift(1) * signals['returns']`. -/
def strategyReturnsMA (data : List Val) (sw lw : ℕ) : List Val :=
  mul2V (shiftV (signalMA data sw lw)) (pctChange data)

/-- Embeds `np.where(rsi < oversold, 1.0, np.where(rsi > overbought, 0.0, np.nan))`. -/
def rsiRawSignal (data : List Val) (p : ℕ) (os ob : ℚ) : List Val :=
  seriesMap data.length (fun t =>
    if Val.lt (idx (rsi data p) t) (Val.fin os) then Val.fin 1
    else if Val.lt (Val.fin ob) (idx (rsi data p) t) then Val.fin 0
    else Val.nan)

/-- Embeds `backtest_rsi_strategy` signal: the raw thresholded signal, forward-filled,
then remaining leading `nan`s replaced by 0. -/
def signalRSIStrat (data : List Val) (p : ℕ) (os ob : ℚ) : List Val :=
  fillzV (ffillV (rsiRawSignal data p os ob))

def positionsRSIStrat (data : List Val) (p : ℕ) (os ob : ℚ) : List Val :=
  diffV (signalRSIStrat data p os ob)

def strategyReturnsRSIStrat (data : List Val) (p : ℕ) (os ob : ℚ) : List Val :=
  mul2V (shiftV (signalRSIStrat data p os ob)) (pctChange data)

/-- Embeds `backtest_buy_and_hold` signal: 1.0 at every bar. -/
def signalBH (data : List Val) : List Val := seriesMap data.length (fun _ => Val.fin 1)

/-- Embeds `backtest_buy_and_hold` positions: 0.0 everywhere, then `iloc[0] = 1.0`. -/
def positionsBH (data : List Val) : List Val :=
  seriesMap data.length (fun t => if t = 0 then Val.fin 1 else Val.fin 0)

/-- Embeds `backtest_buy_and_hold`: `signals['strategy_returns'] = signals['returns']`
(no shift — the held signal is constant). -/
def strategyReturnsBH (data : List Val) : List Val := pctChange data

/-- Cumulative benchmark curve `(1 + returns).cumprod()` (common to all variants). -/
def cumulativeReturns (data : List Val) : List Val :=
  cumprodV ((pctChange data).map (fun v => Val.fin 1 + v))

@[simp] theorem length_signalMA (data : List Val) (sw lw : ℕ) :
    (signalMA data sw lw).length = data.length := by simp [signalMA]

@[simp] theorem length_signalRSIStrat (data : List Val) (p : ℕ) (os ob : ℚ) :
    (signalRSIStrat data p os ob).length = data.length := by
  simp [signalRSIStrat, fillzV, ffillV, rsiRawSignal]

@[simp] theorem length_signalBH (data : List Val) :
    (signalBH data).length = data.length := by simp [signalBH]

theorem idx_diffV {xs : List Val} {t : ℕ} (ht : t < xs.length) (h1 : 1 ≤ t) :
    idx (diffV xs) t = idx xs t - idx xs (t - 1) := by
  rw [diffV, idx_seriesMap _ ht, if_neg (by omega)]

theorem idx_diffV_zero {xs : List Val} (h : 0 < xs.length) : idx (diffV xs) 0 = Val.nan := by
  rw [diffV, idx_seriesMap _ h, if_pos rfl]

theorem idx_shiftV {xs : List Val} {t : ℕ} (ht : t < xs.length) (h1 : 1 ≤ t) :
    idx (shiftV xs) t = idx xs (t - 1) := by
  rw [shiftV, idx_seriesMap _ ht, if_neg (by omega)]

/-- C6 counterexample: For the moving-average variant the first bar's
position change is *not* `signal[0]`: on prices `[1,2,3]` with windows
(1,2), `signal[0] = 0` yet `positions[0]` is missing (`signal.diff()`
leaves `nan` at position 0), and `nan ≠ 0`. -/
theorem c6_counterexample :
    idx (signalMA [Val.fin 1, Val.fin 2, Val.fin 3] 1 2) 0 = Val.fin 0 ∧
    idx (positionsMA [Val.fin 1, Val.fin 2, Val.fin 3] 1 2) 0 = Val.nan ∧
    Val.nan ≠ Val.fin 0 := by
  refine ⟨by decide, by decide, by decide⟩

/-- C6, amended: For every price series and every variant,
`positionChange[t] = signal[t] - signal[t-1]` for `t ≥ 1`.  At the first
bar, only buy-and-hold defines it (as `1 = signal[0]`); the moving-average
and RSI variants leave `positionChange[0]` missing (`nan`), because
`signal.diff()` has no previous bar there. -/
theorem c6_position_change_amended (data : List Val) (sw lw p : ℕ) (os ob : ℚ) (t : ℕ)
    (ht : t < data.length) (h1 : 1 ≤ t) :
    (idx (positionsMA data sw lw) t
        = idx (signalMA data sw lw) t - idx (signalMA data sw lw) (t - 1) ∧
     idx (positionsRSIStrat data p os ob) t
        = idx (signalRSIStrat data p os ob) t - idx (signalRSIStrat data p os ob) (t - 1) ∧
     idx (positionsBH data) t
        = idx (signalBH data) t - idx (signalBH data) (t - 1)) ∧
    (idx (positionsMA data sw lw) 0 = Val.nan ∧
     idx (positionsRSIStrat data p os ob) 0 = Val.nan ∧
     idx (positionsBH data) 0 = Val.fin 1 ∧
     idx (signalBH data) 0 = Val.fin 1) := by
  have hn : 0 < data.length := by omega
  constructor
  · refine ⟨?_, ?_, ?_⟩
    · exact idx_diffV (by simpa using ht) h1
    · exact idx_diffV (by simpa using ht) h1
    · rw [positionsBH, idx_seriesMap _ ht, if_neg (by omega), signalBH,
        idx_seriesMap _ ht, idx_seriesMap _ (by omega : t - 1 < data.length)]
      simp
  · refine ⟨idx_diffV_zero (by simpa using hn), idx_diffV_zero (by simpa using hn), ?_, ?_⟩
    · rw [positionsBH, idx_seriesMap _ hn, if_pos rfl]
    · rw [signalBH, idx_seriesMap _ hn]

/-- Witness for C6 (amended) at prices `[1,2,3]`, bar `t = 1`. -/
theorem c6_witness :
    ((1 : ℕ) < ([Val.fin 1, Val.fin 2, Val.fin 3] : List Val).length ∧ (1 : ℕ) ≤ 1) ∧
    idx (positionsMA [Val.fin 1, Val.fin 2, Val.fin 3] 1 2) 1
      = idx (signalMA [Val.fin 1, Val.fin 2, Val.fin 3] 1 2) 1
        - idx (signalMA [Val.fin 1, Val.fin 2, Val.fin 3] 1 2) 0 ∧
    idx (positionsMA [Val.fin 1, Val.fin 2, Val.fin 3] 1 2) 0 = Val.nan := by
  have h := c6_position_change_amended [Val.fin 1, Val.fin 2, Val.fin 3] 1 2 2 30 70 1
    (by decide) (by decide)
  exact ⟨⟨by decide, by decide⟩, h.1.1, h.2.1⟩

/-! ### Prefix determination: machinery for the no-lookahead property -/

@[simp] theorem length_shiftV (xs : List Val) : (shiftV xs).length = xs.length := by
  simp [shiftV]

@[simp] theorem length_diffV (xs : List Val) : (diffV xs).length = xs.length := by
  simp [diffV]

@[simp] theorem length_ffillV (xs : List Val) : (ffillV xs).length = xs.length := by
  simp [ffillV]

@[simp] theorem length_fillzV (xs : List Val) : (fillzV xs).length = xs.length := by
  simp [fillzV]

@[simp] theorem length_rsi (data : List Val) (w : ℕ) : (rsi data w).length = data.length := by
  simp [rsi]

@[simp] theorem length_rsiRawSignal (data : List Val) (p : ℕ) (os ob : ℚ) :
    (rsiRawSignal data p os ob).length = data.length := by simp [rsiRawSignal]

theorem idx_of_length_le {l : List Val} {i : ℕ} (h : l.length ≤ i) : idx l i = Val.nan := by
  unfold idx
  rw [List.getD_eq_getElem?_getD, List.getElem?_eq_none h]
  rfl

theorem idx_eq_of_take_eq {xs ys : List Val} {k : ℕ}
    (h : xs.take (k + 1) = ys.take (k + 1)) {i : ℕ} (hi : i ≤ k) : idx xs i = idx ys i := by
  unfold idx
  rw [List.getD_eq_getElem?_getD, List.getD_eq_getElem?_getD,
    ← List.getElem?_take_of_lt (l := xs) (show i < k + 1 by omega),
    ← List.getElem?_take_of_lt (l := ys) (show i < k + 1 by omega), h]

theorem getElem?_eq_of_idx_eq {xs ys : List Val} (hlen : xs.length = ys.length)
    {i : ℕ} (h : idx xs i = idx ys i) : xs[i]? = ys[i]? := by
  by_cases hi : i < xs.length
  · rw [List.getElem?_eq_getElem hi, List.getElem?_eq_getElem (hlen ▸ hi)]
    unfold idx at h
    rw [List.getD_eq_getElem?_getD, List.getD_eq_getElem?_getD,
      List.getElem?_eq_getElem hi, List.getElem?_eq_getElem (hlen ▸ hi)] at h
    simpa using h
  · rw [List.getElem?_eq_none (by omega), List.getElem?_eq_none (by omega)]

theorem take_eq_of_idx_eq {xs ys : List Val} {k : ℕ} (hlen : xs.length = ys.length)
    (h : ∀ i ≤ k, idx xs i = idx ys i) : xs.take (k + 1) = ys.take (k + 1) := by
  apply List.ext_getElem?
  intro i
  by_cases hi : i < k + 1
  · rw [List.getElem?_take_of_lt hi, List.getElem?_take_of_lt hi]
    exact getElem?_eq_of_idx_eq hlen (h i (by omega))
  · have h1 : (xs.take (k + 1)).length ≤ i := by rw [List.length_take]; omega
    have h2 : (ys.take (k + 1)).length ≤ i := by rw [List.length_take]; omega
    rw [List.getElem?_eq_none h1, List.getElem?_eq_none h2]

theorem window_take_eq {xs ys : List Val} {k t w : ℕ}
    (h : xs.take (k + 1) = ys.take (k + 1)) (ht : t ≤ k) (hw : w ≤ t + 1) :
    window xs t w = window ys t w := by
  apply List.ext_getElem?
  intro j
  by_cases hj : j < w
  · rw [getElem?_window xs hj, getElem?_window ys hj]
    have hle : t + 1 - w + j < k + 1 := by omega
    rw [← List.getElem?_take_of_lt (l := xs) hle, ← List.getElem?_take_of_lt (l := ys) hle, h]
  · have h1 : (window xs t w).length ≤ j := by
      rw [window, List.length_take]; omega
    have h2 : (window ys t w).length ≤ j := by
      rw [window, List.length_take]; omega
    rw [List.getElem?_eq_none h1, List.getElem?_eq_none h2]

theorem idx_rollingMean_take_eq {xs ys : List Val} {k w t : ℕ} (hlen : xs.length = ys.length)
    (h : xs.take (k + 1) = ys.take (k + 1)) (ht : t ≤ k) (htx : t < xs.length) :
    idx (rollingMean xs w) t = idx (rollingMean ys w) t := by
  rw [idx_rollingMean xs htx, idx_rollingMean ys (hlen ▸ htx)]
  by_cases hc : t + 1 < w
  · rw [if_pos hc, if_pos hc]
  · rw [if_neg hc, if_neg hc, window_take_eq h ht (by omega)]

theorem idx_signalMA_take_eq {xs ys : List Val} {k sw lw t : ℕ} (hlen : xs.length = ys.length)
    (h : xs.take (k + 1) = ys.take (k + 1)) (ht : t ≤ k) (htx : t < xs.length) :
    idx (signalMA xs sw lw) t = idx (signalMA ys sw lw) t := by
  rw [signalMA, idx_seriesMap _ htx, signalMA, idx_seriesMap _ (hlen ▸ htx),
    idx_rollingMean_take_eq hlen h ht htx, idx_rollingMean_take_eq hlen h ht htx]

theorem idx_ffillV_take_eq {xs ys : List Val} {k t : ℕ} (hlen : xs.length = ys.length)
    (h : xs.take (k + 1) = ys.take (k + 1)) (ht : t ≤ k) (htx : t < xs.length) :
    idx (ffillV xs) t = idx (ffillV ys) t := by
  rw [ffillV, idx_seriesMap _ htx, ffillV, idx_seriesMap _ (hlen ▸ htx)]
  have hx : xs.take (t + 1) = ys.take (t + 1) := by
    have h2 := congrArg (List.take (t + 1)) h
    rwa [List.take_take, List.take_take, min_eq_left (by omega : t + 1 ≤ k + 1)] at h2
  rw [hx]

theorem idx_pctChange_take_eq {xs ys : List Val} {k t : ℕ} (hlen : xs.length = ys.length)
    (h : xs.take (k + 1) = ys.take (k + 1)) (ht : t ≤ k) (htx : t < xs.length) :
    idx (pctChange xs) t = idx (pctChange ys) t := by
  rw [pctChange, idx_seriesMap _ htx, pctChange, idx_seriesMap _ (hlen ▸ htx)]
  by_cases h0 : t = 0
  · rw [if_pos h0, if_pos h0]
  · rw [if_neg h0, if_neg h0, idx_ffillV_take_eq hlen h ht htx,
      idx_ffillV_take_eq hlen h (by omega) (by omega)]

theorem idx_diffV_take_eq {xs ys : List Val} {k t : ℕ} (hlen : xs.length = ys.length)
    (h : xs.take (k + 1) = ys.take (k + 1)) (ht : t ≤ k) (htx : t < xs.length) :
    idx (diffV xs) t = idx (diffV ys) t := by
  rw [diffV, idx_seriesMap _ htx, diffV, idx_seriesMap _ (hlen ▸ htx)]
  by_cases h0 : t = 0
  · rw [if_pos h0, if_pos h0]
  · rw [if_neg h0, if_neg h0, idx_eq_of_take_eq h ht, idx_eq_of_take_eq h (by omega)]

theorem idx_gainSeries_take_eq {xs ys : List Val} {k t : ℕ} (hlen : xs.length = ys.length)
    (h : xs.take (k + 1) = ys.take (k + 1)) (ht : t ≤ k) (htx : t < xs.length) :
    idx (gainSeries xs) t = idx (gainSeries ys) t := by
  rw [gainSeries, idx_seriesMap _ htx, gainSeries, idx_seriesMap _ (hlen ▸ htx),
    idx_diffV_take_eq hlen h ht htx]

theorem idx_lossSeries_take_eq {xs ys : List Val} {k t : ℕ} (hlen : xs.length = ys.length)
    (h : xs.take (k + 1) = ys.take (k + 1)) (ht : t ≤ k) (htx : t < xs.length) :
    idx (lossSeries xs) t = idx (lossSeries ys) t := by
  rw [lossSeries, idx_seriesMap _ htx, lossSeries, idx_seriesMap _ (hlen ▸ htx),
    idx_diffV_take_eq hlen h ht htx]

theorem gainSeries_take_eq {xs ys : List Val} {k : ℕ} (hlen : xs.length = ys.length)
    (h : xs.take (k + 1) = ys.take (k + 1)) :
    (gainSeries xs).take (k + 1) = (gainSeries ys).take (k + 1) := by
  apply take_eq_of_idx_eq (by simp [hlen])
  intro i hi
  by_cases hix : i < xs.length
  · exact idx_gainSeries_take_eq hlen h hi hix
  · rw [idx_of_length_le (by simp; omega), idx_of_length_le (by simp [← hlen]; omega)]

theorem lossSeries_take_eq {xs ys : List Val} {k : ℕ} (hlen : xs.length = ys.length)
    (h : xs.take (k + 1) = ys.take (k + 1)) :
    (lossSeries xs).take (k + 1) = (lossSeries ys).take (k + 1) := by
  apply take_eq_of_idx_eq (by simp [hlen])
  intro i hi
  by_cases hix : i < xs.length
  · exact idx_lossSeries_take_eq hlen h hi hix
  · rw [idx_of_length_le (by simp; omega), idx_of_length_le (by simp [← hlen]; omega)]

theorem idx_rsi_take_eq {xs ys : List Val} {k p t : ℕ} (hlen : xs.length = ys.length)
    (h : xs.take (k + 1) = ys.take (k + 1)) (ht : t ≤ k) (htx : t < xs.length) :
    idx (rsi xs p) t = idx (rsi ys p) t := by
  have hg : idx (rollingMean (gainSeries xs) p) t = idx (rollingMean (gainSeries ys) p) t :=
    idx_rollingMean_take_eq (by simp [hlen]) (gainSeries_take_eq hlen h) ht (by simpa using htx)
  have hl : idx (rollingMean (lossSeries xs) p) t = idx (rollingMean (lossSeries ys) p) t :=
    idx_rollingMean_take_eq (by simp [hlen]) (lossSeries_take_eq hlen h) ht (by simpa using htx)
  rw [rsi, idx_seriesMap _ htx, rsi, idx_seriesMap _ (hlen ▸ htx)]
  simp only [avgGain, avgLoss]
  rw [hg, hl]

theorem idx_rsiRawSignal_take_eq {xs ys : List Val} {k p t : ℕ} {os ob : ℚ}
    (hlen : xs.length = ys.length) (h : xs.take (k + 1) = ys.take (k + 1))
    (ht : t ≤ k) (htx : t < xs.length) :
    idx (rsiRawSignal xs p os ob) t = idx (rsiRawSignal ys p os ob) t := by
  rw [rsiRawSignal, idx_seriesMap _ htx, rsiRawSignal, idx_seriesMap _ (hlen ▸ htx),
    idx_rsi_take_eq hlen h ht htx]

theorem rsiRawSignal_take_eq {xs ys : List Val} {k p : ℕ} {os ob : ℚ}
    (hlen : xs.length = ys.length) (h : xs.take (k + 1) = ys.take (k + 1)) :
    (rsiRawSignal xs p os ob).take (k + 1) = (rsiRawSignal ys p os ob).take (k + 1) := by
  apply take_eq_of_idx_eq (by simp [hlen])
  intro i hi
  by_cases hix : i < xs.length
  · exact idx_rsiRawSignal_take_eq hlen h hi hix
  · rw [idx_of_length_le (by simp; omega), idx_of_length_le (by simp [← hlen]; omega)]

theorem idx_fillzV {l : List Val} {t : ℕ} (ht : t < l.length) :
    idx (fillzV l) t = if (idx l t).isNan then Val.fin 0 else idx l t := by
  unfold idx fillzV
  rw [List.getD_eq_getElem?_getD, List.getElem?_map, List.getElem?_eq_getElem ht,
    List.getD_eq_getElem?_getD, List.getElem?_eq_getElem ht]
  rfl

theorem idx_signalRSIStrat_take_eq {xs ys : List Val} {k p t : ℕ} {os ob : ℚ}
    (hlen : xs.length = ys.length) (h : xs.take (k + 1) = ys.take (k + 1))
    (ht : t ≤ k) (htx : t < xs.length) :
    idx (signalRSIStrat xs p os ob) t = idx (signalRSIStrat ys p os ob) t := by
  have hf : idx (ffillV (rsiRawSignal xs p os ob)) t
      = idx (ffillV (rsiRawSignal ys p os ob)) t :=
    idx_ffillV_take_eq (by simp [hlen]) (rsiRawSignal_take_eq hlen h) ht (by simpa using htx)
  rw [signalRSIStrat, idx_fillzV (by simpa using htx), signalRSIStrat,
    idx_fillzV (by simp [← hlen]; omega), hf]

/-- C1: For every price series and every backtest variant, the strategy
return at bar `t ≥ 1` equals `signal[t-1] * pctChange[t]` — the one-bar lag
(buy-and-hold stores the raw return column directly, but its signal is
constantly 1, so the identity holds there too) — and the strategy return at
`t` is a function of the prices up to `t` only: two price series of equal
length that agree on positions `0..t` give the same strategy return at `t`
for all variants (no lookahead). -/
theorem c1_lag_and_no_lookahead (data data' : List Val) (sw lw p : ℕ) (os ob : ℚ) (t : ℕ)
    (ht : t < data.length) (h1 : 1 ≤ t) (hlen : data.length = data'.length)
    (hpre : data.take (t + 1) = data'.take (t + 1)) :
    (idx (strategyReturnsMA data sw lw) t
        = idx (signalMA data sw lw) (t - 1) * idx (pctChange data) t ∧
     idx (strategyReturnsRSIStrat data p os ob) t
        = idx (signalRSIStrat data p os ob) (t - 1) * idx (pctChange data) t ∧
     idx (strategyReturnsBH data) t
        = idx (signalBH data) (t - 1) * idx (pctChange data) t) ∧
    (idx (strategyReturnsMA data sw lw) t = idx (strategyReturnsMA data' sw lw) t ∧
     idx (strategyReturnsRSIStrat data p os ob) t
        = idx (strategyReturnsRSIStrat data' p os ob) t ∧
     idx (strategyReturnsBH data) t = idx (strategyReturnsBH data') t) := by
  have hmulMA : ∀ zs : List Val, t < zs.length →
      idx (strategyReturnsMA zs sw lw) t
        = idx (signalMA zs sw lw) (t - 1) * idx (pctChange zs) t := by
    intro zs hz
    rw [strategyReturnsMA, mul2V, idx_seriesMap _ (by simpa using hz),
      idx_shiftV (by simpa using hz) h1]
  have hmulRSI : ∀ zs : List Val, t < zs.length →
      idx (strategyReturnsRSIStrat zs p os ob) t
        = idx (signalRSIStrat zs p os ob) (t - 1) * idx (pctChange zs) t := by
    intro zs hz
    rw [strategyReturnsRSIStrat, mul2V, idx_seriesMap _ (by simpa using hz),
      idx_shiftV (by simpa using hz) h1]
  have hBH : idx (strategyReturnsBH data) t
      = idx (signalBH data) (t - 1) * idx (pctChange data) t := by
    rw [strategyReturnsBH, signalBH, idx_seriesMap _ (show t - 1 < data.length by omega)]
    exact (Val.one_mul_val _).symm
  have ht' : t < data'.length := hlen ▸ ht
  have epct : idx (pctChange data) t = idx (pctChange data') t :=
    idx_pctChange_take_eq hlen hpre (le_refl t) ht
  refine ⟨⟨hmulMA data ht, hmulRSI data ht, hBH⟩, ?_, ?_, ?_⟩
  · rw [hmulMA data ht, hmulMA data' ht',
      idx_signalMA_take_eq hlen hpre (by omega) (by omega), epct]
  · rw [hmulRSI data ht, hmulRSI data' ht',
      idx_signalRSIStrat_take_eq hlen hpre (by omega) (by omega), epct]
  · rw [strategyReturnsBH, strategyReturnsBH]
    exact epct

/-- Witness for C1 at prices `[1,2,4]` vs `[1,2,8]` (equal through bar 1),
`t = 1`, MA windows (1,2), RSI(2, 30, 70). -/
theorem c1_witness :
    ((1 : ℕ) < ([Val.fin 1, Val.fin 2, Val.fin 4] : List Val).length ∧
      ([Val.fin 1, Val.fin 2, Val.fin 4] : List Val).take 2
        = ([Val.fin 1, Val.fin 2, Val.fin 8] : List Val).take 2) ∧
    idx (strategyReturnsMA [Val.fin 1, Val.fin 2, Val.fin 4] 1 2) 1
      = idx (signalMA [Val.fin 1, Val.fin 2, Val.fin 4] 1 2) 0
        * idx (pctChange [Val.fin 1, Val.fin 2, Val.fin 4]) 1 ∧
    idx (strategyReturnsMA [Val.fin 1, Val.fin 2, Val.fin 4] 1 2) 1
      = idx (strategyReturnsMA [Val.fin 1, Val.fin 2, Val.fin 8] 1 2) 1 ∧
    idx (strategyReturnsRSIStrat [Val.fin 1, Val.fin 2, Val.fin 4] 2 30 70) 1
      = idx (strategyReturnsRSIStrat [Val.fin 1, Val.fin 2, Val.fin 8] 2 30 70) 1 := by
  have h := c1_lag_and_no_lookahead [Val.fin 1, Val.fin 2, Val.fin 4]
    [Val.fin 1, Val.fin 2, Val.fin 8] 1 2 2 30 70 1
    (by decide) (by decide) (by decide) (by decide)
  exact ⟨⟨by decide, by decide⟩, h.1.1, h.2.1, h.2.2.1⟩

/-! ### C5: RSI bounds -/

theorem idx_isFin {l : List Val} (hfin : ∀ x ∈ l, x.isFin = true) {i : ℕ} (hi : i < l.length) :
    ∃ q, idx l i = Val.fin q := by
  have hm : idx l i = l[i] := by
    unfold idx
    rw [List.getD_eq_getElem?_getD, List.getElem?_eq_getElem hi]
    rfl
  have hf := hfin l[i] (List.getElem_mem hi)
  cases h : l[i] with
  | fin q => exact ⟨q, by rw [hm, h]⟩
  | pinf => rw [h] at hf; simp [Val.isFin] at hf
  | ninf => rw [h] at hf; simp [Val.isFin] at hf
  | nan => rw [h] at hf; simp [Val.isFin] at hf

theorem gainSeries_nonneg {data : List Val} (hfin : ∀ x ∈ data, x.isFin = true) :
    ∀ v ∈ gainSeries data, ∃ q, v = Val.fin q ∧ 0 ≤ q := by
  intro v hv
  rcases mem_seriesMap hv with ⟨t, ht, rfl⟩
  by_cases h0 : t = 0
  · subst h0
    rw [idx_diffV_zero (by omega)]
    simp
  · rcases idx_isFin hfin ht with ⟨a, ha⟩
    rcases idx_isFin hfin (show t - 1 < data.length by omega) with ⟨b, hb⟩
    rw [idx_diffV ht (by omega), ha, hb, Val.fin_sub_fin, Val.fin_lt_fin]
    by_cases hd : (0 : ℚ) < a - b
    · rw [if_pos (by simpa using hd)]
      exact ⟨a - b, rfl, le_of_lt hd⟩
    · rw [if_neg (by simpa using hd)]
      exact ⟨0, rfl, le_refl 0⟩

theorem lossSeries_nonneg {data : List Val} (hfin : ∀ x ∈ data, x.isFin = true) :
    ∀ v ∈ lossSeries data, ∃ q, v = Val.fin q ∧ 0 ≤ q := by
  intro v hv
  rcases mem_seriesMap hv with ⟨t, ht, rfl⟩
  by_cases h0 : t = 0
  · subst h0
    rw [idx_diffV_zero (by omega)]
    refine ⟨0, ?_, le_refl 0⟩
    show Val.neg (if Val.lt Val.nan (Val.fin 0) then Val.nan else Val.fin 0) = Val.fin 0
    simp [Val.neg]
  · rcases idx_isFin hfin ht with ⟨a, ha⟩
    rcases idx_isFin hfin (show t - 1 < data.length by omega) with ⟨b, hb⟩
    rw [idx_diffV ht (by omega), ha, hb, Val.fin_sub_fin, Val.fin_lt_fin]
    by_cases hd : a - b < 0
    · rw [if_pos (by simpa using hd)]
      exact ⟨-(a - b), rfl, by linarith⟩
    · rw [if_neg (by simpa using hd)]
      refine ⟨0, ?_, le_refl 0⟩
      show Val.fin (-0) = Val.fin 0
      norm_num

theorem idx_rollingMean_nonneg {xs : List Val} {w t : ℕ}
    (hall : ∀ v ∈ xs, ∃ q, v = Val.fin q ∧ 0 ≤ q) (hw : 1 ≤ w) (ht : t < xs.length) :
    (t + 1 < w → idx (rollingMean xs w) t = Val.nan) ∧
    (w ≤ t + 1 → ∃ g, idx (rollingMean xs w) t = Val.fin g ∧ 0 ≤ g) := by
  constructor
  · intro hc
    rw [idx_rollingMean xs ht, if_pos hc]
  · intro hc
    rw [idx_rollingMean xs ht, if_neg (by omega)]
    have hwin : ∀ v ∈ window xs t w, ∃ q, v = Val.fin q ∧ 0 ≤ q :=
      fun v hv => hall v (window_subset xs t w hv)
    have hfin : ∀ v ∈ window xs t w, v.isFin = true := by
      intro v hv
      rcases hwin v hv with ⟨q, rfl, _⟩
      rfl
    rw [sumV_fin_of_all _ hfin,
      Val.fin_div_fin _ _ (by exact_mod_cast Nat.one_le_iff_ne_zero.1 hw)]
    refine ⟨_, rfl, div_nonneg ?_ (by positivity)⟩
    apply List.sum_nonneg
    intro q hq
    rcases List.mem_map.1 hq with ⟨v, hv, rfl⟩
    rcases hwin v hv with ⟨q', rfl, hq'⟩
    simpa using hq'

/-- C5: For every all-finite price series and window `w ≥ 1`: wherever
RSI is defined (finite) it lies in `[0, 100]`; whenever the trailing
average gain and loss are finite, `RSI = 100` exactly when the average loss
is 0 and the average gain is positive (the infinite `RS = gain/0` is not a
division error), and RSI is undefined (`nan`) at a position where both the
average gain and the average loss are 0. -/
theorem c5_rsi_bounds (data : List Val) (w t : ℕ)
    (hfin : ∀ x ∈ data, x.isFin = true) (hw : 1 ≤ w) (ht : t < data.length) :
    (∀ q : ℚ, idx (rsi data w) t = Val.fin q → 0 ≤ q ∧ q ≤ 100) ∧
    (∀ g l : ℚ, idx (avgGain data w) t = Val.fin g → idx (avgLoss data w) t = Val.fin l →
      ((idx (rsi data w) t = Val.fin 100 ↔ (l = 0 ∧ 0 < g)) ∧
       (g = 0 ∧ l = 0 → idx (rsi data w) t = Val.nan))) := by
  have htg : t < (gainSeries data).length := by simpa using ht
  have htl : t < (lossSeries data).length := by simpa using ht
  have hG := idx_rollingMean_nonneg (gainSeries_nonneg hfin) hw htg
  have hL := idx_rollingMean_nonneg (lossSeries_nonneg hfin) hw htl
  have hform : idx (rsi data w) t =
      Val.fin 100 - Val.fin 100 /
        (Val.fin 1 + idx (avgGain data w) t / idx (avgLoss data w) t) :=
    idx_seriesMap _ ht
  by_cases hwt : t + 1 < w
  · have hGn : idx (avgGain data w) t = Val.nan := hG.1 hwt
    have hrsi : idx (rsi data w) t = Val.nan := by
      rw [hform, hGn]
      simp
    constructor
    · intro q hq
      rw [hrsi] at hq
      exact absurd hq (by simp)
    · intro g l hg _
      rw [hGn] at hg
      exact absurd hg (by simp)
  · have hG2 : ∃ g, idx (avgGain data w) t = Val.fin g ∧ 0 ≤ g := hG.2 (by omega)
    have hL2 : ∃ l, idx (avgLoss data w) t = Val.fin l ∧ 0 ≤ l := hL.2 (by omega)
    rcases hG2 with ⟨g0, hG0, hg0⟩
    rcases hL2 with ⟨l0, hL0, hl0⟩
    rcases eq_or_lt_of_le hl0 with hl0z | hl0p
    · rcases eq_or_lt_of_le hg0 with hg0z | hg0p
      · -- both averages zero: rs = 0/0 = nan, rsi = nan
        have hrsi : idx (rsi data w) t = Val.nan := by
          rw [hform, hG0, hL0, ← hl0z, ← hg0z]
          simp
        refine ⟨fun q hq => absurd (hrsi ▸ hq) (by simp), fun g l hg hl => ?_⟩
        rw [hG0] at hg
        rw [hL0] at hl
        have hgg : g0 = g := by cases hg; rfl
        have hll : l0 = l := by cases hl; rfl
        subst hgg hll
        refine ⟨?_, fun _ => hrsi⟩
        rw [hrsi]
        constructor
        · intro hc
          exact absurd hc (by simp)
        · rintro ⟨-, hgpos⟩
          rw [← hg0z] at hgpos
          exact absurd hgpos (lt_irrefl 0)
      · -- loss 0, gain positive: rs = +inf so rsi = 100 exactly
        have hrsi : idx (rsi data w) t = Val.fin 100 := by
          rw [hform, hG0, hL0, ← hl0z, Val.fin_div_zero_pos g0 hg0p, Val.fin_add_pinf,
            Val.fin_div_pinf, Val.fin_sub_fin]
          norm_num
        refine ⟨fun q hq => ?_, fun g l hg hl => ?_⟩
        · rw [hrsi] at hq
          cases hq
          norm_num
        · rw [hG0] at hg
          rw [hL0] at hl
          have hgg : g0 = g := by cases hg; rfl
          have hll : l0 = l := by cases hl; rfl
          subst hgg hll
          refine ⟨?_, ?_⟩
          · rw [hrsi]
            exact ⟨fun _ => ⟨hl0z.symm, hg0p⟩, fun _ => rfl⟩
          · rintro ⟨hgz, -⟩
            rw [hgz] at hg0p
            exact absurd hg0p (lt_irrefl 0)
    · -- loss positive: rs finite, rsi in [0, 100)
      have hlne : l0 ≠ 0 := ne_of_gt hl0p
      have hrs : (0 : ℚ) ≤ g0 / l0 := div_nonneg hg0 (le_of_lt hl0p)
      have hden : (0 : ℚ) < 1 + g0 / l0 := by linarith
      have hdpos : (0 : ℚ) < 100 / (1 + g0 / l0) := div_pos (by norm_num) hden
      have hdle : 100 / (1 + g0 / l0) ≤ 100 := by
        rw [div_le_iff₀ hden]
        nlinarith
      have hrsi : idx (rsi data w) t = Val.fin (100 - 100 / (1 + g0 / l0)) := by
        rw [hform, hG0, hL0, Val.fin_div_fin _ _ hlne, Val.fin_add_fin,
          Val.fin_div_fin _ _ (ne_of_gt hden), Val.fin_sub_fin]
      refine ⟨fun q hq => ?_, fun g l hg hl => ?_⟩
      · rw [hrsi] at hq
        cases hq
        constructor <;> linarith
      · rw [hG0] at hg
        rw [hL0] at hl
        have hgg : g0 = g := by cases hg; rfl
        have hll : l0 = l := by cases hl; rfl
        subst hgg hll
        refine ⟨?_, ?_⟩
        · rw [hrsi]
          constructor
          · intro hc
            have h100 : (100 : ℚ) - 100 / (1 + g0 / l0) = 100 := Val.fin.inj hc
            linarith
          · rintro ⟨hlz, -⟩
            exact absurd hlz hlne
        · rintro ⟨-, hlz⟩
          exact absurd hlz hlne

/-- Witness for C5 on prices `[1, 2]`, window 1, bar 1: the trailing
average gain is 1, the average loss is 0, and RSI is exactly 100. -/
theorem c5_witness :
    idx (avgGain [Val.fin 1, Val.fin 2] 1) 1 = Val.fin 1 ∧
    idx (avgLoss [Val.fin 1, Val.fin 2] 1) 1 = Val.fin 0 ∧
    idx (rsi [Val.fin 1, Val.fin 2] 1) 1 = Val.fin 100 := by
  have hg : idx (avgGain [Val.fin 1, Val.fin 2] 1) 1 = Val.fin 1 := by
    norm_num [avgGain, gainSeries, diffV, idx, rollingMean, seriesMap, window, sumV,
      List.range_succ, Val.div, Val.lt, Val.add, Val.neg]
  have hl : idx (avgLoss [Val.fin 1, Val.fin 2] 1) 1 = Val.fin 0 := by
    norm_num [avgLoss, lossSeries, diffV, idx, rollingMean, seriesMap, window, sumV,
      List.range_succ, Val.div, Val.lt, Val.add, Val.neg]
  have h := c5_rsi_bounds [Val.fin 1, Val.fin 2] 1 1 (by decide) (by decide) (by decide)
  exact ⟨hg, hl, ((h.2 1 0 hg hl).1).2 ⟨rfl, by norm_num⟩⟩

/-! ### C2: EMA warm-up convention -/

@[simp] theorem idx_cons_zero (x : Val) (l : List Val) : idx (x :: l) 0 = x := rfl

@[simp] theorem idx_cons_succ (x : Val) (l : List Val) (t : ℕ) : idx (x :: l) (t + 1) = idx l t :=
  rfl

/-- Spec-side formula: weighted numerator `∑ (1-a)^(t-i) x[i]` over `x[0..t]`. -/
def specEwmNum (b : ℚ) (qs : List ℚ) (t : ℕ) : ℚ :=
  ∑ i ∈ Finset.range (t + 1), b ^ (t - i) * qs.getD i 0

/-- Spec-side formula: the normalizing weight sum `∑ (1-a)^(t-i)`. -/
def specEwmDen (b : ℚ) (t : ℕ) : ℚ :=
  ∑ i ∈ Finset.range (t + 1), b ^ (t - i)

/-- Spec-side definition (from the spec's words): the bias-adjusted weighted
average of `x[0..t]` with weights `(1-a)^(t-i)`, `a = 2/(span+1)`,
renormalized to the available history. -/
def specEwmAt (span : ℕ) (qs : List ℚ) (t : ℕ) : ℚ :=
  specEwmNum (1 - 2 / ((span : ℚ) + 1)) qs t / specEwmDen (1 - 2 / ((span : ℚ) + 1)) t

def emaSeededGo (a e : ℚ) : List ℚ → List ℚ
  | [] => []
  | q :: rest => (a * q + (1 - a) * e) :: emaSeededGo a (a * q + (1 - a) * e) rest

/-- Modelled from the spec: the *rejected* alternative warm-up convention —
the plain recurrence `ema[t] = a*x[t] + (1-a)*ema[t-1]` seeded with the
first raw value. -/
def emaSeeded (span : ℕ) : List ℚ → List ℚ
  | [] => []
  | q :: rest => q :: emaSeededGo (2 / ((span : ℚ) + 1)) q rest

theorem specEwmNum_cons (b q : ℚ) (rest : List ℚ) (t : ℕ) :
    specEwmNum b (q :: rest) (t + 1) = specEwmNum b rest t + b ^ (t + 1) * q := by
  rw [specEwmNum, Finset.sum_range_succ']
  congr 1
  apply Finset.sum_congr rfl
  intro i _
  show b ^ (t + 1 - (i + 1)) * rest.getD i 0 = b ^ (t - i) * rest.getD i 0
  congr 2
  omega

theorem specEwmDen_succ (b : ℚ) (t : ℕ) :
    specEwmDen b (t + 1) = specEwmDen b t + b ^ (t + 1) := by
  rw [specEwmDen, Finset.sum_range_succ']
  congr 1
  apply Finset.sum_congr rfl
  intro i _
  show b ^ (t + 1 - (i + 1)) = b ^ (t - i)
  congr 1
  omega

theorem specEwmNum_zero (b : ℚ) (qs : List ℚ) : specEwmNum b qs 0 = qs.getD 0 0 := by
  rw [specEwmNum]
  simp

theorem specEwmDen_zero (b : ℚ) : specEwmDen b 0 = 1 := by
  rw [specEwmDen]
  simp

theorem specEwmDen_pos {b : ℚ} (hb : 0 ≤ b) (t : ℕ) : 0 < specEwmDen b t := by
  apply Finset.sum_pos'
  · intro i _
    exact pow_nonneg hb _
  · refine ⟨t, Finset.self_mem_range_succ t, ?_⟩
    simp

theorem ewmGo_fin_eq (b : ℚ) (hb : 0 ≤ b) :
    ∀ (qs : List ℚ) (num den : ℚ), 0 ≤ den → ∀ t, t < qs.length →
      idx (ewmGo b num den (qs.map Val.fin)) t
        = Val.fin ((b ^ (t + 1) * num + specEwmNum b qs t)
            / (b ^ (t + 1) * den + specEwmDen b t)) := by
  intro qs
  induction qs with
  | nil =>
      intro num den _ t ht
      simp at ht
  | cons q rest ih =>
      intro num den hden t ht
      have hden1 : (0 : ℚ) < 1 + b * den := by positivity
      rw [List.map_cons, ewmGo, if_neg (ne_of_gt hden1)]
      cases t with
      | zero =>
          rw [idx_cons_zero]
          congr 1
          rw [specEwmNum_zero, specEwmDen_zero, List.getD_cons_zero]
          ring
      | succ t' =>
          rw [idx_cons_succ, ih (q + b * num) (1 + b * den) (le_of_lt hden1) t'
            (by simpa using ht)]
          congr 1
          rw [specEwmNum_cons, specEwmDen_succ]
          ring

/-- C2: For every finite input series and every span ≥ 1, the engine's
EMA at each position `t` (including all warm-up positions) equals the
bias-adjusted weighted average of `x[0..t]` with weights `(1-a)^(t-i)`,
`a = 2/(span+1)`, divided by the sum of those weights — and it is *not*
the recurrence seeded with the first raw value, which differs already on
the series `[0, 1]` with span 3. -/
theorem c2_ema_bias_adjusted (qs : List ℚ) (span t : ℕ) (hspan : 1 ≤ span)
    (ht : t < qs.length) :
    idx (exponential_moving_average (qs.map Val.fin) span) t
      = Val.fin (specEwmAt span qs t) ∧
    idx (exponential_moving_average [Val.fin 0, Val.fin 1] 3) 1
      ≠ Val.fin ((emaSeeded 3 [0, 1]).getD 1 0) := by
  constructor
  · have hpos : (0 : ℚ) < (span : ℚ) + 1 := by positivity
    have hb : 0 ≤ 1 - 2 / ((span : ℚ) + 1) := by
      rw [sub_nonneg, div_le_one hpos]
      exact_mod_cast (by omega : 2 ≤ span + 1)
    rw [exponential_moving_average, ewmGo_fin_eq _ hb qs 0 0 (le_refl 0) t ht, specEwmAt]
    norm_num
  · have hl : idx (exponential_moving_average [Val.fin 0, Val.fin 1] 3) 1
        = Val.fin (2 / 3) := by
      norm_num [exponential_moving_average, ewmGo, idx]
    have hr : (emaSeeded 3 [0, 1]).getD 1 0 = 1 / 2 := by
      norm_num [emaSeeded, emaSeededGo]
    rw [hl, hr]
    intro hc
    have := Val.fin.inj hc
    norm_num at this

/-- Witness for C2 on `x = [0, 1]`, span 3, `t = 1`: the engine EMA equals
the renormalized weighted average `(1/2·0 + 1·1)/(1/2 + 1) = 2/3`. -/
theorem c2_witness :
    ((1 : ℕ) ≤ 3 ∧ (1 : ℕ) < ([0, 1] : List ℚ).length) ∧
    idx (exponential_moving_average (([0, 1] : List ℚ).map Val.fin) 3) 1
      = Val.fin (specEwmAt 3 [0, 1] 1) := by
  exact ⟨⟨by decide, by decide⟩,
    (c2_ema_bias_adjusted [0, 1] 3 1 (by decide) (by decide)).1⟩

/-! ### RiskMetrics (`QuantitativeAnalysis.risk_metrics`) -/

structure RiskRecord where
  annual_return : Val
  annual_volatility : Val
  sharpe : Val
  max_drawdown : Val
  var_95 : Val
  skewness : Val
  kurtosis : Val
deriving DecidableEq

/-- Round half to even, to an integer (Python `round`). -/
def roundHE (x : ℚ) : ℤ :=
  if x - ⌊x⌋ = 1 / 2 then (if ⌊x⌋ % 2 = 0 then ⌊x⌋ else ⌊x⌋ + 1) else ⌊x + 1 / 2⌋

/-- Embeds `round(x, 4)` on a finite value. -/
def round4 (x : ℚ) : ℚ := (roundHE (x * 10000) : ℚ) / 10000

/-- Embeds `round(float(v), 4)`: non-finite values round to themselves. -/
def round4V : Val → Val
  | Val.fin q => Val.fin (round4 q)
  | v => v

/-- Embeds `Series.mean()`. -/
def meanV (l : List Val) : Val := sumV l / Val.fin (l.length : ℚ)

/-- Embeds `Series.std()` (`ddof=1`): `nan` for fewer than two observations;
`sq` is the floating square-root routine (abstract). -/
def stdV (sq : ℚ → ℚ) (l : List Val) : Val :=
  if l.length ≤ 1 then Val.nan
  else if l.all Val.isFin then Val.fin (sq (svarQ (l.map Val.toQ)))
  else Val.nan

/-- Skipna maximum of a list (`nan` when no non-`nan` entry exists). -/
def maxSkip (l : List Val) : Val :=
  match l.filter (fun v => !v.isNan) with
  | [] => Val.nan
  | x :: rest => rest.foldl Val.vmax x

/-- Embeds `series.expanding().max()`. -/
def expandingMax (l : List Val) : List Val :=
  seriesMap l.length (fun t => maxSkip (l.take (t + 1)))

/-- Embeds `series.min()` (skipna). -/
def minSkip (l : List Val) : Val :=
  match l.filter (fun v => !v.isNan) with
  | [] => Val.nan
  | x :: rest => rest.foldl Val.vmin x

/-- Embeds `np.percentile(l, p)`, linear-interpolation method. -/
def percentileV (l : List Val) (p : ℚ) : Val :=
  if l.all Val.isFin then
    Val.fin
      (let s := List.insertionSort (· ≤ ·) (l.map Val.toQ)
       let h : ℚ := p / 100 * ((l.length : ℚ) - 1)
       let i : ℕ := h.floor.toNat
       let a := s.getD i 0
       let b := s.getD (i + 1) a
       a + (h - (i : ℚ)) * (b - a))
  else Val.nan

/-- Population central moment `m_k` of a rational list. -/
def centralMoment (l : List ℚ) (k : ℕ) : ℚ :=
  (l.map (fun x => (x - l.sum / (l.length : ℚ)) ^ k)).sum / (l.length : ℚ)

/-- Embeds `scipy.stats.skew` (population, biased): `m3 / m2^1.5`, the fractional
power computed through the abstract square root (`m2^1.5 = sqrt(m2^3)`). -/
def skewV (sq : ℚ → ℚ) (l : List Val) : Val :=
  if l.all Val.isFin then
    Val.fin (centralMoment (l.map Val.toQ) 3)
      / Val.fin (sq ((centralMoment (l.map Val.toQ) 2) ^ 3))
  else Val.nan

/-- Embeds `scipy.stats.kurtosis` (population, Fisher/excess): `m4 / m2^2 - 3`. -/
def kurtV (l : List Val) : Val :=
  if l.all Val.isFin then
    Val.fin (centralMoment (l.map Val.toQ) 4)
      / Val.fin ((centralMoment (l.map Val.toQ) 2) ^ 2) - Val.fin 3
  else Val.nan

/-- Embeds `QuantitativeAnalysis.risk_metrics`: drop `nan`s; all-zero record when
nothing remains; otherwise annualized mean/volatility, Sharpe (0 when the
volatility equals 0 — a `nan` volatility is *not* equal to 0), maximum
drawdown of the compounded curve, 5th-percentile VaR, skewness and excess
kurtosis — each rounded to 4 decimal places in the returned record, exactly
as the source's final dict construction does. -/
def risk_metrics (sq : ℚ → ℚ) (returns : List Val) : RiskRecord :=
  let clean := returns.filter (fun v => !v.isNan)
  if clean.length = 0 then
    ⟨Val.fin 0, Val.fin 0, Val.fin 0, Val.fin 0, Val.fin 0, Val.fin 0, Val.fin 0⟩
  else
    let ar := meanV clean * Val.fin 252
    let vol := stdV sq clean * Val.fin (sq 252)
    let sr := if vol ≠ Val.fin 0 then ar / vol else Val.fin 0
    let cum := cumprodV (clean.map (fun v => Val.fin 1 + v))
    let rmax := expandingMax cum
    let dd := seriesMap cum.length (fun t => (idx cum t - idx rmax t) / idx rmax t)
    ⟨round4V ar, round4V vol, round4V sr, round4V (minSkip dd),
      round4V (percentileV clean 5), round4V (skewV sq clean), round4V (kurtV clean)⟩

/-- Embeds `risk_metrics` with the final rounding removed (the spec's idea of the
engine): used to state what the rounding inside the engine does. -/
def risk_metrics_exact (sq : ℚ → ℚ) (returns : List Val) : RiskRecord :=
  let clean := returns.filter (fun v => !v.isNan)
  if clean.length = 0 then
    ⟨Val.fin 0, Val.fin 0, Val.fin 0, Val.fin 0, Val.fin 0, Val.fin 0, Val.fin 0⟩
  else
    let ar := meanV clean * Val.fin 252
    let vol := stdV sq clean * Val.fin (sq 252)
    let sr := if vol ≠ Val.fin 0 then ar / vol else Val.fin 0
    let cum := cumprodV (clean.map (fun v => Val.fin 1 + v))
    let rmax := expandingMax cum
    let dd := seriesMap cum.length (fun t => (idx cum t - idx rmax t) / idx rmax t)
    ⟨ar, vol, sr, minSkip dd, percentileV clean 5, skewV sq clean, kurtV clean⟩

/-- Field-wise rounding to 4 decimals. -/
def roundRecord (r : RiskRecord) : RiskRecord :=
  ⟨round4V r.annual_return, round4V r.annual_volatility, round4V r.sharpe,
    round4V r.max_drawdown, round4V r.var_95, round4V r.skewness, round4V r.kurtosis⟩

/-- C4 counterexample: On the return series `[1/301]` the engine does
*not* return the exact annualized mean `252/301`: it returns the 4-decimal
rounding `0.8372 = 2093/2500` — the rounding happens inside `risk_metrics`
itself, not at the request boundary. -/
theorem c4_counterexample :
    (risk_metrics (fun q => q) [Val.fin (1 / 301)]).annual_return = Val.fin (2093 / 2500) ∧
    meanV ([Val.fin (1 / 301)].filter (fun v => !v.isNan)) * Val.fin 252
      = Val.fin (252 / 301) ∧
    (2093 / 2500 : ℚ) ≠ (252 / 301 : ℚ) := by
  refine ⟨?_, ?_, by norm_num⟩
  · norm_num [risk_metrics, meanV, sumV, round4V, round4, roundHE, Val.div, Val.add, Val.mul]
  · norm_num [meanV, sumV, Val.div, Val.add, Val.mul]

/-- C4, amended: For every return series, the record returned by the
engine is exactly the field-wise 4-decimal rounding of the unrounded
metrics: the rounding is performed inside `risk_metrics` itself (the
request boundary forwards the record unchanged). -/
theorem c4_engine_rounds (sq : ℚ → ℚ) (returns : List Val) :
    risk_metrics sq returns = roundRecord (risk_metrics_exact sq returns) := by
  rw [risk_metrics, risk_metrics_exact]
  by_cases h : (returns.filter (fun v => !v.isNan)).length = 0
  · rw [if_pos h, if_pos h]
    show _ = roundRecord ⟨Val.fin 0, Val.fin 0, Val.fin 0, Val.fin 0, Val.fin 0, Val.fin 0,
      Val.fin 0⟩
    rw [roundRecord]
    norm_num [round4V, round4, roundHE]
  · rw [if_neg h, if_neg h]
    rfl

/-- C10: For a return series whose non-missing part is exactly one entry
`r`, `risk_metrics` returns a defined `annual_return` (the rounded `252·r`)
but an undefined (`nan`) `annual_volatility` and `sharpe_ratio`: the sample
standard deviation of one observation is `nan` and the zero-volatility
guard (`!= 0`) does not catch `nan`.  The all-zero fallback record applies
exactly when *zero* valid entries remain. -/
theorem c10_single_entry (sq : ℚ → ℚ) (r : ℚ) (returns : List Val)
    (h : returns.filter (fun v => !v.isNan) = [Val.fin r]) :
    (risk_metrics sq returns).annual_return = Val.fin (round4 (r * 252)) ∧
    (risk_metrics sq returns).annual_volatility = Val.nan ∧
    (risk_metrics sq returns).sharpe = Val.nan ∧
    (∀ xs : List Val, xs.filter (fun v => !v.isNan) = [] →
      risk_metrics sq xs
        = ⟨Val.fin 0, Val.fin 0, Val.fin 0, Val.fin 0, Val.fin 0, Val.fin 0, Val.fin 0⟩) := by
  have har : meanV [Val.fin r] * Val.fin 252 = Val.fin (r * 252) := by
    norm_num [meanV, sumV, Val.div, Val.add, Val.mul]
  have hvol : stdV sq [Val.fin r] * Val.fin (sq 252) = Val.nan := by
    rw [stdV, if_pos (by norm_num)]
    exact Val.nan_mul _
  have hsr : (if stdV sq [Val.fin r] * Val.fin (sq 252) ≠ Val.fin 0 then
        (meanV [Val.fin r] * Val.fin 252) / (stdV sq [Val.fin r] * Val.fin (sq 252))
      else Val.fin 0) = Val.nan := by
    rw [if_pos (by rw [hvol]; exact fun hc => Val.noConfusion hc), hvol, Val.div_nan]
  refine ⟨?_, ?_, ?_, ?_⟩
  · simp only [risk_metrics, h]
    rw [if_neg (by simp)]
    show round4V (meanV [Val.fin r] * Val.fin 252) = Val.fin (round4 (r * 252))
    rw [har]
    rfl
  · simp only [risk_metrics, h]
    rw [if_neg (by simp)]
    show round4V (stdV sq [Val.fin r] * Val.fin (sq 252)) = Val.nan
    rw [hvol]
    rfl
  · simp only [risk_metrics, h]
    rw [if_neg (by simp)]
    show round4V (if stdV sq [Val.fin r] * Val.fin (sq 252) ≠ Val.fin 0 then
        (meanV [Val.fin r] * Val.fin 252) / (stdV sq [Val.fin r] * Val.fin (sq 252))
      else Val.fin 0) = Val.nan
    rw [hsr]
    rfl
  · intro xs hx
    simp only [risk_metrics, hx]
    rfl

/-- Witness for C10 on the return series `[nan, 1/100]`. -/
theorem c10_witness :
    ([Val.nan, Val.fin (1 / 100)].filter (fun v => !v.isNan) = [Val.fin (1 / 100)]) ∧
    (risk_metrics (fun q => q) [Val.nan, Val.fin (1 / 100)]).annual_volatility = Val.nan ∧
    (risk_metrics (fun q => q) [Val.nan, Val.fin (1 / 100)]).annual_return
      = Val.fin (round4 (1 / 100 * 252)) := by
  have hf : [Val.nan, Val.fin (1 / 100)].filter (fun v => !v.isNan) = [Val.fin (1 / 100)] := by
    simp
  have h := c10_single_entry (fun q => q) (1 / 100) [Val.nan, Val.fin (1 / 100)] hf
  exact ⟨hf, h.2.1, h.1⟩

/-! ### PortfolioOptimizer (`QuantitativeAnalysis.portfolio_optimization`) -/

def dotQ (u v : List ℚ) : ℚ := (List.zipWith (· * ·) u v).sum

/-- Transpose of a rational matrix given as a list of rows. -/
def transposeQ (m : List (List ℚ)) : List (List ℚ) :=
  (List.range ((m.headD []).length)).map (fun j => m.map (fun row => row.getD j 0))

def matMulQ (a b : List (List ℚ)) : List (List ℚ) :=
  a.map (fun row => (transposeQ b).map (fun col => dotQ row col))

def matVecQ (m : List (List ℚ)) (v : List ℚ) : List ℚ :=
  m.map (fun row => dotQ row v)

/-- The four Moore-Penrose equations: `p` is the pseudoinverse of `a`.
Used to pin the abstract `np.linalg.pinv` at concrete inputs (the
pseudoinverse is unique). -/
def IsPinv (a p : List (List ℚ)) : Prop :=
  matMulQ a (matMulQ p a) = a ∧ matMulQ p (matMulQ a p) = p ∧
  transposeQ (matMulQ a p) = matMulQ a p ∧ transposeQ (matMulQ p a) = matMulQ p a

/-- Sample covariance (`ddof=1`) of two equal-length complete columns
(`DataFrame.cov`; the caller passes `pct_change().dropna()` data, so the
rows are complete, and every use has at least two rows). -/
def sampleCovQ (a b : List ℚ) : ℚ :=
  (List.zipWith (fun x y => (x - a.sum / (a.length : ℚ)) * (y - b.sum / (b.length : ℚ))) a b).sum
    / ((a.length : ℚ) - 1)

/-- Embeds `returns_data.cov()`; the asset columns are the rows of this list. -/
def covQ (cols : List (List ℚ)) : List (List ℚ) :=
  cols.map (fun a => cols.map (fun b => sampleCovQ a b))

/-- pandas `Series.sum()` (skipna). -/
def sumSkip (l : List Val) : Val := sumV (l.filter (fun v => !v.isNan))

/-- Embeds `equal_weight` branch: `np.array([1/n] * n)`. -/
def equalWeights (n : ℕ) : List Val := List.replicate n (Val.fin (1 / (n : ℚ)))

/-- Embeds `risk_parity` branch: `inv_vol = 1/std` per column, normalized by
`inv_vol.sum()` (a zero volatility gives `1/0 = +inf`, as in floats). -/
def riskParityWeights (sq : ℚ → ℚ) (cols : List (List ℚ)) : List Val :=
  ((cols.map (fun c => stdV sq (c.map Val.fin))).map (fun v => Val.fin 1 / v)).map
    (fun v => v /
      sumSkip ((cols.map (fun c => stdV sq (c.map Val.fin))).map (fun v => Val.fin 1 / v)))

/-- Embeds `minimum_variance` branch: `v = pinv(cov) @ ones`, then `v / v.sum()`
(`pinv` is the abstract `np.linalg.pinv`; a zero sum divides by zero). -/
def minVarianceWeights (pinv : List (List ℚ) → List (List ℚ)) (cols : List (List ℚ)) :
    List Val :=
  (matVecQ (pinv (covQ cols)) (List.replicate cols.length 1)).map
    (fun x => Val.fin x /
      Val.fin (matVecQ (pinv (covQ cols)) (List.replicate cols.length 1)).sum)

structure PortResult where
  weights : List Val
  metrics : RiskRecord
  prets : List Val
deriving DecidableEq

/-- Portfolio return series `(returns_data * weights).sum(axis=1)`:
row-wise weighted sum, skipna. -/
def portfolioReturns (cols : List (List ℚ)) (ws : List Val) : List Val :=
  seriesMap ((cols.headD []).length)
    (fun t => sumSkip (List.zipWith (fun c w => Val.fin (c.getD t 0) * w) cols ws))

/-- Embeds `QuantitativeAnalysis.portfolio_optimization`: dispatch on the method
name (an unknown name raises `ValueError`), then return the weights, the
risk metrics of the weighted portfolio return series, and that series. -/
def portfolio_optimization (sq : ℚ → ℚ) (pinv : List (List ℚ) → List (List ℚ))
    (cols : List (List ℚ)) (method : String) : Except String PortResult :=
  if method = "equal_weight" then
    let ws := equalWeights cols.length
    Except.ok ⟨ws, risk_metrics sq (portfolioReturns cols ws), portfolioReturns cols ws⟩
  else if method = "risk_parity" then
    let ws := riskParityWeights sq cols
    Except.ok ⟨ws, risk_metrics sq (portfolioReturns cols ws), portfolioReturns cols ws⟩
  else if method = "minimum_variance" then
    let ws := minVarianceWeights pinv cols
    Except.ok ⟨ws, risk_metrics sq (portfolioReturns cols ws), portfolioReturns cols ws⟩
  else
    Except.error "method must be 'equal_weight', 'risk_parity', or 'minimum_variance'"

/-! ### C3 and C7: portfolio weight properties -/

theorem sum_map_div (l : List ℚ) (s : ℚ) : (l.map (fun x => x / s)).sum = l.sum / s := by
  induction l with
  | nil => simp
  | cons x xs ih => simp [ih, add_div]

theorem toQ_map_fin (c : List ℚ) : (c.map Val.fin).map Val.toQ = c := by
  induction c with
  | nil => rfl
  | cons x xs ih => simp [ih]

theorem stdV_map_fin (sq : ℚ → ℚ) (c : List ℚ) (hc : 2 ≤ c.length) :
    stdV sq (c.map Val.fin) = Val.fin (sq (svarQ c)) := by
  rw [stdV, if_neg (by simp; omega), if_pos (by simp)]
  rw [toQ_map_fin]

theorem equalWeights_ok (n : ℕ) (hn : 1 ≤ n) :
    sumV (equalWeights n) = Val.fin 1 ∧
      ∀ w ∈ equalWeights n, ∃ q : ℚ, w = Val.fin q ∧ 0 ≤ q := by
  have hne : ((n : ℚ)) ≠ 0 := Nat.cast_ne_zero.2 (by omega)
  constructor
  · rw [equalWeights, ← List.map_replicate, sumV_map_fin, List.sum_replicate, nsmul_eq_mul,
      mul_one_div, div_self hne]
  · intro w hw
    rw [equalWeights] at hw
    exact ⟨1 / (n : ℚ), List.eq_of_mem_replicate hw, by positivity⟩

theorem riskParityWeights_ok (sq : ℚ → ℚ) (cols : List (List ℚ)) (hn : 1 ≤ cols.length)
    (hsq : ∀ q : ℚ, 0 < q → 0 < sq q)
    (hvar : ∀ c ∈ cols, 2 ≤ c.length ∧ 0 < svarQ c) :
    sumV (riskParityWeights sq cols) = Val.fin 1 ∧
      ∀ w ∈ riskParityWeights sq cols, ∃ q : ℚ, w = Val.fin q ∧ 0 ≤ q := by
  have hinv : (cols.map (fun c => stdV sq (c.map Val.fin))).map (fun v => Val.fin 1 / v)
      = (cols.map (fun c => 1 / sq (svarQ c))).map Val.fin := by
    rw [List.map_map, List.map_map]
    apply List.map_congr_left
    intro c hc
    show Val.fin 1 / stdV sq (c.map Val.fin) = Val.fin (1 / sq (svarQ c))
    rw [stdV_map_fin sq c (hvar c hc).1,
      Val.fin_div_fin _ _ (ne_of_gt (hsq _ (hvar c hc).2))]
  have hxs_pos : ∀ x ∈ cols.map (fun c => 1 / sq (svarQ c)), 0 < x := by
    intro x hx
    rcases List.mem_map.1 hx with ⟨c, hc, rfl⟩
    exact div_pos one_pos (hsq _ (hvar c hc).2)
  have hne : cols.map (fun c => 1 / sq (svarQ c)) ≠ [] := by
    apply List.ne_nil_of_length_pos
    simp
    omega
  have hsum_pos : 0 < (cols.map (fun c => 1 / sq (svarQ c))).sum :=
    List.sum_pos _ hxs_pos hne
  have hfilter : ((cols.map (fun c => 1 / sq (svarQ c))).map Val.fin).filter
      (fun v => !v.isNan) = (cols.map (fun c => 1 / sq (svarQ c))).map Val.fin := by
    apply List.filter_eq_self.2
    intro v hv
    rcases List.mem_map.1 hv with ⟨q, _, rfl⟩
    rfl
  have hS : sumSkip ((cols.map (fun c => 1 / sq (svarQ c))).map Val.fin)
      = Val.fin ((cols.map (fun c => 1 / sq (svarQ c))).sum) := by
    rw [sumSkip, hfilter, sumV_map_fin]
  have hwts : riskParityWeights sq cols
      = ((cols.map (fun c => 1 / sq (svarQ c))).map
          (fun x => x / (cols.map (fun c => 1 / sq (svarQ c))).sum)).map Val.fin := by
    rw [riskParityWeights, hinv, hS]
    simp only [List.map_map]
    apply List.map_congr_left
    intro c _
    show Val.fin (1 / sq (svarQ c)) / Val.fin ((cols.map (fun c => 1 / sq (svarQ c))).sum)
      = Val.fin (1 / sq (svarQ c) / (cols.map (fun c => 1 / sq (svarQ c))).sum)
    rw [Val.fin_div_fin _ _ (ne_of_gt hsum_pos)]
  constructor
  · rw [hwts, sumV_map_fin, sum_map_div, div_self (ne_of_gt hsum_pos)]
  · intro w hw
    rw [hwts] at hw
    rcases List.mem_map.1 hw with ⟨q, hq, rfl⟩
    rcases List.mem_map.1 hq with ⟨c, hc, rfl⟩
    exact ⟨_, rfl, le_of_lt (div_pos (hxs_pos c hc) hsum_pos)⟩

theorem minVarianceWeights_ok (pinv : List (List ℚ) → List (List ℚ)) (cols : List (List ℚ))
    (hs : (matVecQ (pinv (covQ cols)) (List.replicate cols.length 1)).sum ≠ 0) :
    sumV (minVarianceWeights pinv cols) = Val.fin 1 ∧
      ∀ w ∈ minVarianceWeights pinv cols, ∃ q : ℚ, w = Val.fin q := by
  have hwts : minVarianceWeights pinv cols
      = ((matVecQ (pinv (covQ cols)) (List.replicate cols.length 1)).map
          (fun x => x / (matVecQ (pinv (covQ cols)) (List.replicate cols.length 1)).sum)).map
          Val.fin := by
    rw [minVarianceWeights, List.map_map]
    apply List.map_congr_left
    intro x _
    exact Val.fin_div_fin x _ hs
  constructor
  · rw [hwts, sumV_map_fin, sum_map_div, div_self hs]
  · intro w hw
    rw [hwts] at hw
    rcases List.mem_map.1 hw with ⟨q, _, rfl⟩
    exact ⟨q, rfl⟩

/-- C3 counterexample: Minimum-variance weights can be negative: on the
3-row, 2-asset return data `A = [1, -1, 0]`, `B = [9/10, -9/10, 3/10]`
(sample covariance `[[1, 9/10], [9/10, 21/25]]`, pseudoinverse
`[[28, -30], [-30, 100/3]]`, verified by the Moore-Penrose equations), the
optimizer returns weights `[-3/2, 5/2]`: weight 0 is negative, with no
error raised.  `portfolio_optimization` has no nonnegativity constraint. -/
theorem c3_counterexample :
    IsPinv (covQ [[1, -1, 0], [9/10, -9/10, 3/10]]) [[28, -30], [-30, 100/3]] ∧
    minVarianceWeights (fun _ => [[28, -30], [-30, 100/3]]) [[1, -1, 0], [9/10, -9/10, 3/10]]
      = [Val.fin (-(3/2)), Val.fin (5/2)] ∧
    portfolio_optimization (fun q => q) (fun _ => [[28, -30], [-30, 100/3]])
        [[1, -1, 0], [9/10, -9/10, 3/10]] "minimum_variance"
      = Except.ok
          ⟨minVarianceWeights (fun _ => [[28, -30], [-30, 100/3]])
              [[1, -1, 0], [9/10, -9/10, 3/10]],
            risk_metrics (fun q => q)
              (portfolioReturns [[1, -1, 0], [9/10, -9/10, 3/10]]
                (minVarianceWeights (fun _ => [[28, -30], [-30, 100/3]])
                  [[1, -1, 0], [9/10, -9/10, 3/10]])),
            portfolioReturns [[1, -1, 0], [9/10, -9/10, 3/10]]
              (minVarianceWeights (fun _ => [[28, -30], [-30, 100/3]])
                [[1, -1, 0], [9/10, -9/10, 3/10]])⟩ ∧
    (-(3/2) : ℚ) < 0 := by
  refine ⟨?_, ?_, rfl, by norm_num⟩
  · norm_num [IsPinv, matMulQ, transposeQ, dotQ, covQ, sampleCovQ, List.range_succ]
  · norm_num [minVarianceWeights, matVecQ, dotQ, covQ, sampleCovQ, Val.fin_div_fin,
      List.replicate_succ]

/-- C3, amended: For one or more equal-length return series:
`equalWeight` weights are nonnegative and sum to exactly 1; `riskParity`
weights are nonnegative and sum to exactly 1 provided every asset has at
least two observations and strictly positive sample variance (so its
volatility is a positive finite number); `minimumVariance` weights are
defined (finite) and sum to exactly 1 whenever the raw pseudoinverse
weights have nonzero sum — but they need not be nonnegative (see the
counterexample). -/
theorem c3_weights_amended (sq : ℚ → ℚ) (pinv : List (List ℚ) → List (List ℚ))
    (cols : List (List ℚ)) (hn : 1 ≤ cols.length)
    (hsq : ∀ q : ℚ, 0 < q → 0 < sq q)
    (hvar : ∀ c ∈ cols, 2 ≤ c.length ∧ 0 < svarQ c) :
    (sumV (equalWeights cols.length) = Val.fin 1 ∧
      ∀ w ∈ equalWeights cols.length, ∃ q : ℚ, w = Val.fin q ∧ 0 ≤ q) ∧
    (sumV (riskParityWeights sq cols) = Val.fin 1 ∧
      ∀ w ∈ riskParityWeights sq cols, ∃ q : ℚ, w = Val.fin q ∧ 0 ≤ q) ∧
    ((matVecQ (pinv (covQ cols)) (List.replicate cols.length 1)).sum ≠ 0 →
      sumV (minVarianceWeights pinv cols) = Val.fin 1 ∧
      ∀ w ∈ minVarianceWeights pinv cols, ∃ q : ℚ, w = Val.fin q) :=
  ⟨equalWeights_ok cols.length hn, riskParityWeights_ok sq cols hn hsq hvar,
    fun hs => minVarianceWeights_ok pinv cols hs⟩

/-- Witness for C3 (amended) on the two-asset data of the counterexample
with `sq = id` (positive on positives). -/
theorem c3_witness :
    ((1 : ℕ) ≤ ([[1, -1, 0], [9/10, -9/10, 3/10]] : List (List ℚ)).length ∧
      (0 : ℚ) < svarQ [1, -1, 0] ∧ (0 : ℚ) < svarQ [9/10, -9/10, 3/10]) ∧
    sumV (equalWeights 2) = Val.fin 1 ∧
    sumV (riskParityWeights (fun q => q) [[1, -1, 0], [9/10, -9/10, 3/10]]) = Val.fin 1 := by
  have hv1 : (0 : ℚ) < svarQ [1, -1, 0] := by norm_num [svarQ]
  have hv2 : (0 : ℚ) < svarQ [9/10, -9/10, 3/10] := by norm_num [svarQ]
  have h := c3_weights_amended (fun q => q) (fun _ => [[1]]) [[1, -1, 0], [9/10, -9/10, 3/10]]
    (by decide) (fun q hq => hq)
    (by
      intro c hc
      rcases List.mem_cons.1 hc with rfl | hc2
      · exact ⟨by decide, hv1⟩
      · rcases List.mem_cons.1 hc2 with rfl | hc3
        · exact ⟨by decide, hv2⟩
        · cases hc3)
  exact ⟨⟨by decide, hv1, hv2⟩, h.1.1, h.2.1.1⟩

/-- C7 counterexample: In the degenerate sum-to-zero case the optimizer
does *not* signal a fatal error: on a single constant return series the
covariance matrix is `[[0]]`, its pseudoinverse is `[[0]]`, the raw weights
sum to zero, and `portfolio_optimization` returns `Except.ok` with the
weight list `[nan]` (a silent 0/0) instead of an error. -/
theorem c7_counterexample :
    IsPinv (covQ [[1/100, 1/100, 1/100]]) [[0]] ∧
    minVarianceWeights (fun _ => [[0]]) [[1/100, 1/100, 1/100]] = [Val.nan] ∧
    portfolio_optimization (fun q => q) (fun _ => [[0]]) [[1/100, 1/100, 1/100]]
        "minimum_variance"
      = Except.ok
          ⟨minVarianceWeights (fun _ => [[0]]) [[1/100, 1/100, 1/100]],
            risk_metrics (fun q => q) (portfolioReturns [[1/100, 1/100, 1/100]]
              (minVarianceWeights (fun _ => [[0]]) [[1/100, 1/100, 1/100]])),
            portfolioReturns [[1/100, 1/100, 1/100]]
              (minVarianceWeights (fun _ => [[0]]) [[1/100, 1/100, 1/100]])⟩ := by
  refine ⟨?_, ?_, rfl⟩
  · norm_num [IsPinv, matMulQ, transposeQ, dotQ, covQ, sampleCovQ, List.range_succ]
  · norm_num [minVarianceWeights, matVecQ, dotQ, covQ, sampleCovQ, Val.fin_div_fin,
      List.replicate_succ]

/-- C7, amended: A singular covariance matrix is handled through the
pseudoinverse and still yields defined, sum-to-1 weights whenever the raw
pseudoinverse weights have nonzero sum — as on the perfectly correlated
pair `A = [1, -1, 0]`, `B = (4/5)·A` (singular covariance
`[[1, 4/5], [4/5, 16/25]]`), which gives finite weights `[5/9, 4/9]`.  In
the sum-to-zero case, however, the optimizer silently returns `nan`
weights (division by zero) instead of a reportable error. -/
theorem c7_pinv_amended (pinv : List (List ℚ) → List (List ℚ)) (cols : List (List ℚ))
    (hs : (matVecQ (pinv (covQ cols)) (List.replicate cols.length 1)).sum ≠ 0) :
    (sumV (minVarianceWeights pinv cols) = Val.fin 1 ∧
      ∀ w ∈ minVarianceWeights pinv cols, ∃ q : ℚ, w = Val.fin q) ∧
    (IsPinv (covQ [[1, -1, 0], [4/5, -4/5, 0]])
        [[625/1681, 500/1681], [500/1681, 400/1681]] ∧
      minVarianceWeights (fun _ => [[625/1681, 500/1681], [500/1681, 400/1681]])
          [[1, -1, 0], [4/5, -4/5, 0]] = [Val.fin (5/9), Val.fin (4/9)]) ∧
    minVarianceWeights (fun _ => [[0]]) [[1/100, 1/100, 1/100]] = [Val.nan] := by
  refine ⟨minVarianceWeights_ok pinv cols hs, ⟨?_, ?_⟩, ?_⟩
  · norm_num [IsPinv, matMulQ, transposeQ, dotQ, covQ, sampleCovQ, List.range_succ]
  · norm_num [minVarianceWeights, matVecQ, dotQ, covQ, sampleCovQ, Val.fin_div_fin,
      List.replicate_succ]
  · norm_num [minVarianceWeights, matVecQ, dotQ, covQ, sampleCovQ, Val.fin_div_fin,
      List.replicate_succ]

/-- Witness for C7 (amended): on the perfectly correlated singular pair the
raw pseudoinverse weights sum to `2025/1681 ≠ 0`, and the optimizer weights
sum to 1. -/
theorem c7_witness :
    (matVecQ ((fun _ => [[625/1681, 500/1681], [500/1681, 400/1681]])
        (covQ [[1, -1, 0], [4/5, -4/5, 0]]))
      (List.replicate ([[1, -1, 0], [4/5, -4/5, 0]] : List (List ℚ)).length 1)).sum ≠ 0 ∧
    sumV (minVarianceWeights (fun _ => [[625/1681, 500/1681], [500/1681, 400/1681]])
      [[1, -1, 0], [4/5, -4/5, 0]]) = Val.fin 1 := by
  have hs : (matVecQ ((fun _ => [[625/1681, 500/1681], [500/1681, 400/1681]])
        (covQ [[1, -1, 0], [4/5, -4/5, 0]]))
      (List.replicate ([[1, -1, 0], [4/5, -4/5, 0]] : List (List ℚ)).length 1)).sum ≠ 0 := by
    norm_num [matVecQ, dotQ, covQ, sampleCovQ, List.replicate_succ]
  exact ⟨hs, (c7_pinv_amended (fun _ => [[625/1681, 500/1681], [500/1681, 400/1681]])
    [[1, -1, 0], [4/5, -4/5, 0]] hs).1.1⟩
